import Mathlib

/-!
# Verification of the go-highway SME matmul / flash-attention kernels

This file gives a shallow embedding of the tiled matrix-multiplication
drivers (`matmul_sme_arm64.c`, `blocked_fmopa_arm64.c`), the 16-bit
float conversions used by the mixed-precision kernels, and the SME
flash-attention driver (`sdpa_sme_arm64.c`), together with proofs of the
specification claims about them.

Modelling conventions:

* Machine buffers are total functions `ℕ → α` (flat row-major arrays);
  a store to index `i` is a pointwise overwrite.
* Floating-point arithmetic in the matmul kernels is idealised as exact
  arithmetic.  The matmul drivers are embedded generically over an
  arbitrary carrier with abstract `add`/`mul`/`zero` operations (so that
  reordering facts such as blocking invariance are proved for *any*
  arithmetic, including floating point, since they only permute
  independent tiles); the concrete `f32`/`f64` drivers instantiate the
  carrier at `ℚ`.
* The attention driver manipulates `-inf` (initial running max, masked
  columns) and can produce NaN, so its value domain is `FVal`: exact
  rationals extended with `+inf`, `-inf` and `NaN`, with IEEE-754
  special-value propagation rules (finite arithmetic is exact).
* The f16/bf16 conversions in the source are literal integer bit
  manipulations; they are embedded as functions on `ℕ` bit patterns.
-/

/-- Idealised floating-point value: an exact rational, or one of the
IEEE-754 special values `+inf`, `-inf`, `NaN`.  Finite arithmetic is
exact (no rounding); special values propagate as in IEEE-754.
Signed zero is not modelled (`ℚ` has a single zero). -/
inductive FVal where
  | fin : ℚ → FVal
  | pinf : FVal
  | ninf : FVal
  | nan : FVal
deriving DecidableEq

namespace FVal

/-- IEEE addition: NaN propagates, `+inf + -inf = NaN`, infinities
absorb finite values, finite addition is exact. -/
def add : FVal → FVal → FVal
  | nan, _ => nan
  | _, nan => nan
  | pinf, ninf => nan
  | ninf, pinf => nan
  | pinf, _ => pinf
  | _, pinf => pinf
  | ninf, _ => ninf
  | _, ninf => ninf
  | fin a, fin b => fin (a + b)

/-- IEEE negation. -/
def neg : FVal → FVal
  | fin a => fin (-a)
  | pinf => ninf
  | ninf => pinf
  | nan => nan

/-- IEEE subtraction (`a - b = a + (-b)`); in particular
`(-inf) - (-inf) = NaN`. -/
def sub (a b : FVal) : FVal := add a (neg b)

/-- IEEE multiplication: NaN propagates, `0 * inf = NaN`, signs of
infinities follow the sign rules, finite multiplication is exact. -/
def mul : FVal → FVal → FVal
  | nan, _ => nan
  | _, nan => nan
  | fin a, fin b => fin (a * b)
  | fin a, pinf => if a = 0 then nan else if 0 < a then pinf else ninf
  | fin a, ninf => if a = 0 then nan else if 0 < a then ninf else pinf
  | pinf, fin b => if b = 0 then nan else if 0 < b then pinf else ninf
  | ninf, fin b => if b = 0 then nan else if 0 < b then ninf else pinf
  | pinf, pinf => pinf
  | pinf, ninf => ninf
  | ninf, pinf => ninf
  | ninf, ninf => pinf

/-- IEEE division (as far as the drivers need it: `1 / l`).  Division by
zero yields a signed infinity (signed zero is not modelled, so the
positive branch is taken for the single zero); `x / NaN = NaN`. -/
def div : FVal → FVal → FVal
  | nan, _ => nan
  | _, nan => nan
  | fin a, fin b =>
      if b = 0 then (if a = 0 then nan else if 0 < a then pinf else ninf)
      else fin (a / b)
  | fin _, pinf => fin 0
  | fin _, ninf => fin 0
  | pinf, fin b => if 0 ≤ b then pinf else ninf
  | ninf, fin b => if 0 ≤ b then ninf else pinf
  | pinf, _ => nan
  | ninf, _ => nan

/-- IEEE `<` comparison: any comparison involving NaN is false. -/
def lt : FVal → FVal → Bool
  | nan, _ => false
  | _, nan => false
  | ninf, ninf => false
  | ninf, _ => true
  | _, ninf => false
  | pinf, _ => false
  | fin _, pinf => true
  | fin a, fin b => decide (a < b)

/-- IEEE `x >= 0` test (false for NaN). -/
def gez : FVal → Bool
  | fin q => decide (0 ≤ q)
  | pinf => true
  | ninf => false
  | nan => false

/-- C cast `(long)x` / `(int)x`: truncation toward zero for finite
values.  For NaN the result is 0 (ARM64 `fcvtzs` semantics); the
infinite cases are unreachable in the embedded drivers (arguments are
clamped before the cast) and are also mapped to 0. -/
def toIntTrunc : FVal → ℤ
  | fin q => if 0 ≤ q then ⌊q⌋ else ⌈q⌉
  | _ => 0

/-- Non-strict order used to state the running-max monotonicity
invariant: equality or strict IEEE `<`. -/
def le (a b : FVal) : Prop := a = b ∨ lt a b = true

end FVal

/-!
## Matmul drivers (`matmul_sme_arm64.c`, `blocked_fmopa_arm64.c`)

The drivers are embedded generically over a carrier `α` with abstract
`add`/`mul`/`zero`: the source kernels only ever add and multiply, and
the blocking-invariance claim is about reordering independent tiles, so
it is proved for arbitrary (in particular floating-point) arithmetic.
-/

section Matmul

variable {α : Type}

/-- One entry `(r, c)` of the ZA accumulator tile at `(ti, tj)` after
the full K loop: `svzero_za()` then, for `kk = 0 .. k-1`,
`za[r][c] += AT[kk*m + ti + r] * B[kk*n + tj + c]` (the FMOPA rank-1
update restricted to one entry; entries evolve independently). -/
def fmopaEntry (add mul : α → α → α) (zero : α) (atv bv : ℕ → α)
    (m n k ti tj : ℕ) (r c : ℕ) : α :=
  (List.range k).foldl
    (fun acc kk => add acc (mul (atv (kk * m + (ti + r))) (bv (kk * n + (tj + c))))) zero

/-- `svst1` of one tile row: overwrite `len` consecutive entries of the
buffer starting at `off` with `vals 0 .. vals (len-1)`. -/
def storeRow (f : ℕ → α) (off len : ℕ) (vals : ℕ → α) : ℕ → α :=
  fun idx => if off ≤ idx ∧ idx < off + len then vals (idx - off) else f idx

/-- The tile store loop: `for (row = 0; row < w; row++)` store the ZA
row `row` to `c + (ti + row) * n + tj`. -/
def storeTile (f : ℕ → α) (n ti tj w : ℕ) (e : ℕ → ℕ → α) : ℕ → α :=
  (List.range w).foldl
    (fun g row => storeRow g ((ti + row) * n + tj) w (fun col => e row col)) f

/-- Number of iterations of `for (x = 0; x < len; x += w)`. -/
def numTiles (len w : ℕ) : ℕ := (len + w - 1) / w

/-- Tile coordinates visited by the non-blocked driver, in program
order: `ti` outer, `tj` inner, both stepping by `w`. -/
def matmulTiles (w m n : ℕ) : List (ℕ × ℕ) :=
  (List.range (numTiles m w)).flatMap fun tI =>
    (List.range (numTiles n w)).map fun tJ => (w * tI, w * tJ)

/-- Tile coordinates visited by the cache-blocked driver, in program
order: `i0`/`j0` stepping by the block size `bs`, then `ti`/`tj`
stepping by `w` from the block base up to `min (i0 + bs) m`
(resp. `min (j0 + bs) n`). -/
def blockedTiles (w bs m n : ℕ) : List (ℕ × ℕ) :=
  (List.range (numTiles m bs)).flatMap fun bI =>
    (List.range (numTiles n bs)).flatMap fun bJ =>
      (List.range (numTiles (min (bs * bI + bs) m - bs * bI) w)).flatMap fun tI =>
        (List.range (numTiles (min (bs * bJ + bs) n - bs * bJ) w)).map fun tJ =>
          (bs * bI + w * tI, bs * bJ + w * tJ)

/-- Run the zero → K-accumulate → extract-and-store cycle for every
tile in the list, in order, over the output buffer `c`. -/
def runTiles (add mul : α → α → α) (zero : α) (ts : List (ℕ × ℕ))
    (atv bv : ℕ → α) (m n k w : ℕ) (c : ℕ → α) : ℕ → α :=
  ts.foldl
    (fun f t => storeTile f n t.1 t.2 w (fmopaEntry add mul zero atv bv m n k t.1 t.2)) c

/-- `matmul_fmopa_at_*`: the non-blocked driver with tile width `w`.
`k` is a `long`; a non-positive `k` runs the K loop zero times. -/
def matmulGen (add mul : α → α → α) (zero : α) (w : ℕ)
    (atv bv c : ℕ → α) (m n : ℕ) (k : ℤ) : ℕ → α :=
  runTiles add mul zero (matmulTiles w m n) atv bv m n k.toNat w c

/-- `blockedmatmul_fmopa_at_*`: the cache-blocked driver with tile
width `w` and cache block size `bs` (`BLOCK_SIZE = 48` in the source). -/
def blockedGen (add mul : α → α → α) (zero : α) (w bs : ℕ)
    (atv bv c : ℕ → α) (m n : ℕ) (k : ℤ) : ℕ → α :=
  runTiles add mul zero (blockedTiles w bs m n) atv bv m n k.toNat w c

end Matmul

/-- `matmul_fmopa_at_f32` (16×16 tiles) over the exact-arithmetic
idealisation `ℚ` of `float`. -/
def matmul_fmopa_at_f32 (atv bv c : ℕ → ℚ) (m n : ℕ) (k : ℤ) : ℕ → ℚ :=
  matmulGen (· + ·) (· * ·) 0 16 atv bv c m n k

/-- `matmul_fmopa_at_f64` (8×8 tiles) over the exact-arithmetic
idealisation `ℚ` of `double`. -/
def matmul_fmopa_at_f64 (atv bv c : ℕ → ℚ) (m n : ℕ) (k : ℤ) : ℕ → ℚ :=
  matmulGen (· + ·) (· * ·) 0 8 atv bv c m n k

/-- `blockedmatmul_fmopa_at_f32`: 48×48 cache blocks of 16×16 tiles. -/
def blockedmatmul_fmopa_at_f32 (atv bv c : ℕ → ℚ) (m n : ℕ) (k : ℤ) : ℕ → ℚ :=
  blockedGen (· + ·) (· * ·) 0 16 48 atv bv c m n k

/-- `blockedmatmul_fmopa_at_f64`: 48×48 cache blocks of 8×8 tiles. -/
def blockedmatmul_fmopa_at_f64 (atv bv c : ℕ → ℚ) (m n : ℕ) (k : ℤ) : ℕ → ℚ :=
  blockedGen (· + ·) (· * ·) 0 8 48 atv bv c m n k

/-- Naive triple-loop reference product
`C[i,j] = Σ_{kk<k} AT[kk,i] * B[kk,j]` (spec, section 8). -/
def matmulRef (atv bv : ℕ → ℚ) (m n k i j : ℕ) : ℚ :=
  ∑ kk ∈ Finset.range k, atv (kk * m + i) * bv (kk * n + j)

/-- Tile `(ti, tj)` covers flat index `idx`. -/
def coversTile (n w : ℕ) (t : ℕ × ℕ) (idx : ℕ) : Prop :=
  ∃ r, r < w ∧ ∃ c, c < w ∧ idx = (t.1 + r) * n + (t.2 + c)

/-- The 16×16 identity matrix as a flat row-major `AT` buffer:
`AT[kk*16 + i] = 1` iff `kk = i` (for indices inside the 16×16 region,
the row is `idx / 16` and the column `idx % 16`). -/
def atId : ℕ → ℚ := fun idx => if idx / 16 = idx % 16 then 1 else 0

/-!
## Mixed-precision conversions (`matmul_fmopa_at_f16`, `matmul_bfmopa_at_bf16`)

The source converts between 16-bit and 32-bit formats with explicit bit
manipulation on `u32` lanes; the embedding works on the same `ℕ` bit
patterns.  Constants: `112 << 23 = 939524096` (exponent-bias
adjustment), `2^13 = 8192`, `2^16 = 65536`, `0xFFF = 4095`,
`0x7FFF = 32767`, `2^32 = 4294967296`.
-/

/-- f16→f32 widening (`matmul_fmopa_at_f16` load path): shift the 16
f16 bits left by 13 and add the `112 << 23` exponent-bias adjustment.
Per the source comment this is the conversion for normalised values
(not denormals/inf/NaN); the bit-level round-trip below holds for every
16-bit pattern. -/
def f16widen (h : ℕ) : ℕ := h * 8192 + 939524096

/-- f32→f16 narrowing (`matmul_fmopa_at_f16` store path): subtract the
exponent-bias adjustment (u32 wraparound), add the round-to-nearest
bias `((bits >> 13) & 1) + 0xFFF`, shift right 13, store the low 16
bits. -/
def f16narrow (x : ℕ) : ℕ :=
  let bits := (x + 4294967296 - 939524096) % 4294967296
  let roundBit := (bits / 8192) % 2
  let bits2 := (bits + (roundBit + 4095)) % 4294967296
  (bits2 / 8192) % 65536

/-- bf16→f32 widening (`matmul_bfmopa_at_bf16` load path): shift left
16 (bf16 is the upper half of f32). -/
def bf16widen (h : ℕ) : ℕ := h * 65536

/-- f32→bf16 narrowing (`matmul_bfmopa_at_bf16` store path): add the
round-to-nearest-even bias `((bits >> 16) & 1) + 0x7FFF`, shift right
16, store the low 16 bits. -/
def bf16narrow (x : ℕ) : ℕ :=
  let bit16 := (x / 65536) % 2
  let bits2 := (x + (bit16 + 32767)) % 4294967296
  (bits2 / 65536) % 65536

/-- Round `d` to the nearest multiple of `2 * half` (expressed as a
quotient), ties going to the even quotient — the reference
round-to-nearest-even rule the spec describes. -/
def rne (d half : ℕ) : ℕ :=
  if half < d % (2 * half) ∨ (d % (2 * half) = half ∧ (d / (2 * half)) % 2 = 1) then
    d / (2 * half) + 1
  else d / (2 * half)

/-!
## Flash-attention driver (`sdpa_sme_arm64.c`)

The embedding works over `FVal`.  The per-type constants (tile width,
clamp bound, `1/ln2`, the two-part `ln2`, Horner coefficients) are
collected in `SdpaParams`; the f32 and f64 drivers are the two
instantiations.  The decimal literals below are the source's literals
read exactly as rationals (the exact-arithmetic idealisation).
-/

/-- Per-precision constants of the attention driver. -/
structure SdpaParams where
  w : ℕ
  clampMin : ℚ
  invLn2 : ℚ
  ln2hi : ℚ
  ln2lo : ℚ
  coeffs : List ℚ

/-- Constants of `sdpa_fmopa_f32`. -/
def sdpaParamsF32 : SdpaParams :=
  { w := 16
    clampMin := -87.3365
    invLn2 := 1.44269504088896341
    ln2hi := 0.693359375
    ln2lo := -2.12194440e-4
    coeffs := [0.001388888888888889, 0.008333333333333333, 0.041666666666666664,
               0.16666666666666666, 0.5, 1.0, 1.0] }

/-- Constants of `sdpa_fmopa_f64`. -/
def sdpaParamsF64 : SdpaParams :=
  { w := 8
    clampMin := -708.396
    invLn2 := 1.4426950408889634
    ln2hi := 0.6931471803691238
    ln2lo := 1.9082149292705877e-10
    coeffs := [2.48015873015873015873e-5, 1.98412698412698412698e-4,
               1.38888888888888888889e-3, 8.33333333333333333333e-3,
               4.16666666666666666667e-2, 1.66666666666666666667e-1, 0.5, 1.0, 1.0] }

/-- C cast `(int)x` truncation toward zero, on `ℚ`. -/
def truncQ (q : ℚ) : ℤ := if 0 ≤ q then ⌊q⌋ else ⌈q⌉

/-- The Horner evaluation of the source (`p = c0; p = c1 + p*r; ...`),
over `ℚ`. -/
def hornerQ (cs : List ℚ) (r : ℚ) : ℚ :=
  match cs with
  | [] => 0
  | c :: rest => rest.foldl (fun ap cc => cc + ap * r) c

/-- The scalar range-reduced polynomial exponential of the source, over
`ℚ`: clamp below at `clampMin`, `k = (int)(x/ln2 ± 0.5)` (truncation
toward zero), two-part `ln2` reduction, Horner polynomial, and the
power-of-two scaling.  The source builds `2^k` by writing
`(k + bias) << mantissa-bits` into the exponent field, which equals
`2^k` for every `k` in the normal range reachable here; the model uses
`2^k` directly. -/
def pexpQ (P : SdpaParams) (x0 : ℚ) : ℚ :=
  let x := if x0 < P.clampMin then P.clampMin else x0
  let kf := x * P.invLn2
  let ki : ℤ := truncQ (kf + (if 0 ≤ kf then (1 : ℚ)/2 else -(1/2)))
  let r1 := x - (ki : ℚ) * P.ln2hi
  let r2 := r1 - (ki : ℚ) * P.ln2lo
  hornerQ P.coeffs r2 * (2 : ℚ) ^ ki

/-- The same Horner evaluation over `FVal`. -/
def hornerF (cs : List ℚ) (r : FVal) : FVal :=
  match cs with
  | [] => FVal.fin 0
  | c :: rest => rest.foldl (fun ap cc => FVal.add (FVal.fin cc) (FVal.mul ap r)) (FVal.fin c)

/-- The scalar exponential of the source over `FVal` (IEEE special
values propagate: a NaN argument survives the clamp comparison and
poisons the reduction and the polynomial). -/
def pexpF (P : SdpaParams) (x0 : FVal) : FVal :=
  let x := if FVal.lt x0 (FVal.fin P.clampMin) then FVal.fin P.clampMin else x0
  let kf := FVal.mul x (FVal.fin P.invLn2)
  let ki : ℤ :=
    FVal.toIntTrunc (FVal.add kf (if FVal.gez kf then FVal.fin ((1 : ℚ)/2) else FVal.fin (-(1/2))))
  let r1 := FVal.sub x (FVal.mul (FVal.fin (ki : ℚ)) (FVal.fin P.ln2hi))
  let r2 := FVal.sub r1 (FVal.mul (FVal.fin (ki : ℚ)) (FVal.fin P.ln2lo))
  FVal.mul (hornerF P.coeffs r2) (FVal.fin ((2 : ℚ) ^ ki))

/-- The inputs of one attention call (`q`, pre-transposed `kt`, `v`,
optional additive `mask`, scalar `scale`, and the three dimensions,
which are C `long`s). -/
structure SdpaIn where
  q : ℕ → FVal
  kt : ℕ → FVal
  v : ℕ → FVal
  mask : Option (ℕ → FVal)
  scale : FVal
  seqLen : ℤ
  kvLen : ℤ
  headDim : ℤ

/-- Mutable state of one Q row-block: per-row running max `m_arr`,
running sum `l_arr`, and the output buffer. -/
structure SdpaSt where
  marr : ℕ → FVal
  larr : ℕ → FVal
  out : ℕ → FVal

/-- `for (d = 0; d < len; d++) f[off + d] = 0` (the output-accumulator
zeroing loop; each store is index-local). -/
def zeroSeg (f : ℕ → FVal) (off len : ℕ) : ℕ → FVal :=
  fun idx => if off ≤ idx ∧ idx < off + len then FVal.fin 0 else f idx

/-- `for (p = 0; p < len; p++) f[off + p] *= a`. -/
def mulSeg (f : ℕ → FVal) (off len : ℕ) (a : FVal) : ℕ → FVal :=
  fun idx => if off ≤ idx ∧ idx < off + len then FVal.mul (f idx) a else f idx

/-- `for (p = 0; p < len; p++) f[off + p] += wv * src[srcOff + p]`. -/
def addMulSeg (f : ℕ → FVal) (off len : ℕ) (wv : FVal) (src : ℕ → FVal) (srcOff : ℕ) :
    ℕ → FVal :=
  fun idx =>
    if off ≤ idx ∧ idx < off + len then FVal.add (f idx) (FVal.mul wv (src (srcOff + (idx - off))))
    else f idx

/-- Entry `(row, col)` of the ZA score tile `S = Q_block · Ktᵗ_block`:
`svzero_za()`, then for each `dd < headDim` accumulate
`q_col[row] * kt[dd*kvLen + kj + col]`, where `q_col[row]` is the
strided Q load, zero-padded for rows past `seqLen`. -/
def sdpaScoreEntry (I : SdpaIn) (qi kj row col : ℕ) : FVal :=
  (List.range I.headDim.toNat).foldl
    (fun acc dd => FVal.add acc (FVal.mul
      (if ((qi + row : ℕ) : ℤ) < I.seqLen then I.q ((qi + row) * I.headDim.toNat + dd)
       else FVal.fin 0)
      (I.kt (dd * I.kvLen.toNat + (kj + col))))) (FVal.fin 0)

/-- The scaled, masked score `s_row[col]` of the online-softmax row
loop: columns past `kvLen` are forced to `-inf`; in-range scores are
scaled and, if a mask is present, the mask entry is added. -/
def sdpaMasked (I : SdpaIn) (qi kj row col : ℕ) : FVal :=
  if I.kvLen ≤ ((kj + col : ℕ) : ℤ) then FVal.ninf
  else
    let s1 := FVal.mul (sdpaScoreEntry I qi kj row col) I.scale
    match I.mask with
    | none => s1
    | some mk => FVal.add s1 (mk ((qi + row) * I.kvLen.toNat + (kj + col)))

/-- The row-max fold of the source
(`if (s_row[col] > row_max) row_max = s_row[col]` over the tile),
starting from the previous running max. -/
def sdpaRowMax (P : SdpaParams) (I : SdpaIn) (qi kj row : ℕ) (mPrev : FVal) : FVal :=
  (List.range P.w).foldl
    (fun mx col => if FVal.lt mx (sdpaMasked I qi kj row col) then sdpaMasked I qi kj row col
      else mx) mPrev

/-- `alpha = exp(m_prev - m_new)`, defined as `1` when
`m_prev == -inf` (the source's guard `m_prev != negInfVal`). -/
def sdpaAlpha (P : SdpaParams) (mPrev mNew : FVal) : FVal :=
  if mPrev = FVal.ninf then FVal.fin 1 else pexpF P (FVal.sub mPrev mNew)

/-- `p_row[col] = exp(s_row[col] - m_new)`, `0` for columns past
`kvLen`. -/
def sdpaPRow (P : SdpaParams) (I : SdpaIn) (qi kj row col : ℕ) (mNew : FVal) : FVal :=
  if I.kvLen ≤ ((kj + col : ℕ) : ℤ) then FVal.fin 0
  else pexpF P (FVal.sub (sdpaMasked I qi kj row col) mNew)

/-- `row_sum = Σ p_row[col]` over the in-range columns of the tile
(out-of-range columns are skipped by the `continue`). -/
def sdpaRowSum (P : SdpaParams) (I : SdpaIn) (qi kj row : ℕ) (mNew : FVal) : FVal :=
  (List.range P.w).foldl
    (fun acc col => if I.kvLen ≤ ((kj + col : ℕ) : ℤ) then acc
      else FVal.add acc (sdpaPRow P I qi kj row col mNew)) (FVal.fin 0)

/-- The output-accumulation loop `O[row,:] += p_row[col] * V[kj+col,:]`
over `col < kCols` (the `break` at `kvLen` truncates the range; weights
equal to `0.0` are skipped by the `continue`). -/
def sdpaAccumCols (P : SdpaParams) (I : SdpaIn) (qi kj row : ℕ) (mNew : FVal)
    (f : ℕ → FVal) : ℕ → FVal :=
  (List.range (min P.w (I.kvLen - (kj : ℤ)).toNat)).foldl
    (fun g col =>
      if sdpaPRow P I qi kj row col mNew = FVal.fin 0 then g
      else addMulSeg g ((qi + row) * I.headDim.toNat) I.headDim.toNat
        (sdpaPRow P I qi kj row col mNew) I.v ((kj + col) * I.headDim.toNat)) f

/-- Processing of one row of the score tile: compute the new running
max, the rescale factor `alpha`, rescale the running sum and the output
row, add the tile's weight row-sum, and accumulate the weighted V rows. -/
def sdpaRowStep (P : SdpaParams) (I : SdpaIn) (qi kj row : ℕ) (st : SdpaSt) : SdpaSt :=
  let mPrev := st.marr row
  let mNew := sdpaRowMax P I qi kj row mPrev
  let alpha := sdpaAlpha P mPrev mNew
  let l1 := FVal.mul alpha (st.larr row)
  let out1 := mulSeg st.out ((qi + row) * I.headDim.toNat) I.headDim.toNat alpha
  let l2 := FVal.add l1 (sdpaRowSum P I qi kj row mNew)
  let out2 := sdpaAccumCols P I qi kj row mNew out1
  ⟨Function.update st.marr row mNew, Function.update st.larr row l2, out2⟩

/-- One key/value column-tile iteration: the FMOPA score tile followed
by the per-row online-softmax update, for the rows of this Q block that
are below `seqLen` (`if (qi + row >= seqLen) break`). -/
def sdpaTileStep (P : SdpaParams) (I : SdpaIn) (qi kj : ℕ) (st : SdpaSt) : SdpaSt :=
  (List.range (min P.w (I.seqLen - (qi : ℤ)).toNat)).foldl
    (fun s row => sdpaRowStep P I qi kj row s) st

/-- State at entry of a Q block: all running maxes `-inf`, all running
sums `0`, and the output rows of this block zeroed. -/
def sdpaBlockInit (P : SdpaParams) (I : SdpaIn) (qi : ℕ) (out0 : ℕ → FVal) : SdpaSt :=
  ⟨fun _ => FVal.ninf, fun _ => FVal.fin 0,
    zeroSeg out0 (qi * I.headDim.toNat)
      (min P.w (I.seqLen - (qi : ℤ)).toNat * I.headDim.toNat)⟩

/-- State of a Q block after its first `t` key/value column tiles
(`kj = 0, w, 2w, ...`). -/
def sdpaStateAfter (P : SdpaParams) (I : SdpaIn) (qi : ℕ) (out0 : ℕ → FVal) (t : ℕ) : SdpaSt :=
  (List.range t).foldl (fun s u => sdpaTileStep P I qi (P.w * u) s)
    (sdpaBlockInit P I qi out0)

/-- The final normalisation `O /= l` of a Q block, skipping rows whose
running sum is exactly zero. -/
def sdpaFinalize (P : SdpaParams) (I : SdpaIn) (qi : ℕ) (st : SdpaSt) : ℕ → FVal :=
  (List.range (min P.w (I.seqLen - (qi : ℤ)).toNat)).foldl
    (fun f r =>
      if st.larr r = FVal.fin 0 then f
      else mulSeg f ((qi + r) * I.headDim.toNat) I.headDim.toNat
        (FVal.div (FVal.fin 1) (st.larr r))) st.out

/-- One full Q row-block. -/
def sdpaBlock (P : SdpaParams) (I : SdpaIn) (qi : ℕ) (out0 : ℕ → FVal) : ℕ → FVal :=
  sdpaFinalize P I qi (sdpaStateAfter P I qi out0 (numTiles I.kvLen.toNat P.w))

/-- The generic attention driver: the three degenerate-dimension
early-return guards, then the loop over Q row-blocks. -/
def sdpa_fmopa (P : SdpaParams) (I : SdpaIn) (out0 : ℕ → FVal) : ℕ → FVal :=
  if I.seqLen ≤ 0 then out0
  else if I.kvLen ≤ 0 then out0
  else if I.headDim ≤ 0 then out0
  else (List.range (numTiles I.seqLen.toNat P.w)).foldl
    (fun f u => sdpaBlock P I (P.w * u) f) out0

/-- `sdpa_fmopa_f32` (16-wide tiles, f32 exponential constants). -/
def sdpa_fmopa_f32 (q kt v : ℕ → FVal) (mask : Option (ℕ → FVal)) (out0 : ℕ → FVal)
    (seqLen kvLen headDim : ℤ) (scale : FVal) : ℕ → FVal :=
  sdpa_fmopa sdpaParamsF32 ⟨q, kt, v, mask, scale, seqLen, kvLen, headDim⟩ out0

/-- `sdpa_fmopa_f64` (8-wide tiles, f64 exponential constants). -/
def sdpa_fmopa_f64 (q kt v : ℕ → FVal) (mask : Option (ℕ → FVal)) (out0 : ℕ → FVal)
    (seqLen kvLen headDim : ℤ) (scale : FVal) : ℕ → FVal :=
  sdpa_fmopa sdpaParamsF64 ⟨q, kt, v, mask, scale, seqLen, kvLen, headDim⟩ out0


/-!
### C2: small-size equivalence with the direct reference computation

Reference (spec, section 8): `softmax(scale·Q·Kᵗ + mask)·V` computed
directly — score matrix, row max, stable exponentials, weighted sum,
normalisation — using the same range-reduced polynomial exponential
(`pexpQ`) as the kernel, in exact arithmetic.
-/

/-- Reference score `S[i,c] = (Σ_d Q[i,d]·Kᵗ[d,c])·scale + mask[i,c]`. -/
def sdpaRefScore (qQ ktQ mq : ℕ → ℚ) (kN hN : ℕ) (scaleQ : ℚ) (i c : ℕ) : ℚ :=
  (∑ d ∈ Finset.range hN, qQ (i * hN + d) * ktQ (d * kN + c)) * scaleQ + mq (i * kN + c)

/-- Reference row max of the scores (defined for `kN ≥ 1`). -/
def sdpaRefMax (qQ ktQ mq : ℕ → ℚ) (kN hN : ℕ) (scaleQ : ℚ) (i : ℕ) : ℚ :=
  (List.range kN).foldl (fun a c => max a (sdpaRefScore qQ ktQ mq kN hN scaleQ i c))
    (sdpaRefScore qQ ktQ mq kN hN scaleQ i 0)

/-- Reference stable softmax weight `exp(S[i,c] - max_c S[i,c])`. -/
def sdpaRefWeight (P : SdpaParams) (qQ ktQ mq : ℕ → ℚ) (kN hN : ℕ) (scaleQ : ℚ)
    (i c : ℕ) : ℚ :=
  pexpQ P (sdpaRefScore qQ ktQ mq kN hN scaleQ i c - sdpaRefMax qQ ktQ mq kN hN scaleQ i)

/-- Reference attention output
`O[i,p] = (Σ_c w[i,c]·V[c,p]) / (Σ_c w[i,c])`. -/
def sdpaRefOut (P : SdpaParams) (qQ ktQ vQ mq : ℕ → ℚ) (kN hN : ℕ) (scaleQ : ℚ)
    (i p : ℕ) : ℚ :=
  (∑ c ∈ Finset.range kN, sdpaRefWeight P qQ ktQ mq kN hN scaleQ i c * vQ (c * hN + p))
    / (∑ c ∈ Finset.range kN, sdpaRefWeight P qQ ktQ mq kN hN scaleQ i c)

namespace FVal


@[simp] theorem add_fin_fin (a b : ℚ) : add (fin a) (fin b) = fin (a + b) := rfl
@[simp] theorem mul_fin_fin (a b : ℚ) : mul (fin a) (fin b) = fin (a * b) := rfl
@[simp] theorem sub_fin_fin (a b : ℚ) : sub (fin a) (fin b) = fin (a - b) := by
  simp [sub, add, neg, sub_eq_add_neg]
@[simp] theorem neg_fin (a : ℚ) : neg (fin a) = fin (-a) := rfl
@[simp] theorem lt_fin_fin (a b : ℚ) : lt (fin a) (fin b) = decide (a < b) := rfl
@[simp] theorem lt_ninf_fin (a : ℚ) : lt ninf (fin a) = true := rfl
@[simp] theorem lt_any_ninf (a : FVal) : lt a ninf = false := by cases a <;> rfl
@[simp] theorem gez_fin (a : ℚ) : gez (fin a) = decide (0 ≤ a) := rfl
@[simp] theorem toIntTrunc_fin (a : ℚ) :
    toIntTrunc (fin a) = if 0 ≤ a then ⌊a⌋ else ⌈a⌉ := rfl

theorem le_refl (a : FVal) : le a a := Or.inl rfl

theorem lt_trans' {a b c : FVal} (h1 : lt a b = true) (h2 : lt b c = true) :
    lt a c = true := by
  cases a <;> cases b <;> cases c <;> simp_all [lt]
  exact lt_trans h1 h2

theorem le_trans' {a b c : FVal} (h1 : le a b) (h2 : le b c) : le a c := by
  rcases h1 with rfl | h1
  · exact h2
  · rcases h2 with rfl | h2
    · exact Or.inr h1
    · exact Or.inr (lt_trans' h1 h2)

theorem le_of_lt' {a b : FVal} (h : lt a b = true) : le a b := Or.inr h

end FVal

/-!
### Lookup lemmas for the tiled stores

Each driver writes every output element at most once (tiles are
disjoint); the value of `C[i*n+j]` after the run is the accumulator
entry of the unique tile covering `(i, j)`.
-/

section MatmulLemmas

variable {α : Type}

/-- Row-major flat index decomposition is unique when the column part
is in range. -/
theorem flatIdx_inj {n a b a' b' : ℕ} (hb : b < n) (hb' : b' < n)
    (h : a * n + b = a' * n + b') : a = a' ∧ b = b' := by
  have hn : 0 < n := by omega
  have h1 : (a * n + b) / n = a := by
    rw [Nat.mul_comm a n, Nat.mul_add_div hn, Nat.div_eq_of_lt hb]
    omega
  have h2 : (a' * n + b') / n = a' := by
    rw [Nat.mul_comm a' n, Nat.mul_add_div hn, Nat.div_eq_of_lt hb']
    omega
  have ha : a = a' := by rw [← h1, ← h2, h]
  refine ⟨ha, ?_⟩
  subst ha
  omega

theorem storeRow_unchanged (f : ℕ → α) (off len : ℕ) (vals : ℕ → α) (idx : ℕ)
    (h : ¬(off ≤ idx ∧ idx < off + len)) : storeRow f off len vals idx = f idx :=
  if_neg h

theorem storeRow_at (f : ℕ → α) (off len : ℕ) (vals : ℕ → α) (d : ℕ)
    (hd : d < len) : storeRow f off len vals (off + d) = vals d := by
  have h1 : off ≤ off + d ∧ off + d < off + len := by omega
  simp only [storeRow, if_pos h1, Nat.add_sub_cancel_left]

theorem rows_fold_unchanged (n ti tj w : ℕ) (e : ℕ → ℕ → α) (idx : ℕ)
    (L : List ℕ) (f : ℕ → α)
    (h : ∀ row ∈ L, ¬((ti + row) * n + tj ≤ idx ∧ idx < (ti + row) * n + tj + w)) :
    (L.foldl (fun g row => storeRow g ((ti + row) * n + tj) w (fun col => e row col)) f) idx
      = f idx := by
  induction L generalizing f with
  | nil => rfl
  | cons hd tl ih =>
    simp only [List.foldl_cons]
    rw [ih _ fun row hr => h row (List.mem_cons_of_mem hd hr)]
    exact storeRow_unchanged _ _ _ _ _ (h hd (List.mem_cons_self hd tl))

theorem rows_fold_at (n ti tj w : ℕ) (e : ℕ → ℕ → α) (r c : ℕ) (hc : c < w)
    (L : List ℕ) (f : ℕ → α) (hr : r ∈ L)
    (huniq : ∀ row ∈ L,
      ((ti + row) * n + tj ≤ (ti + r) * n + (tj + c) ∧
        (ti + r) * n + (tj + c) < (ti + row) * n + tj + w) → row = r) :
    (L.foldl (fun g row => storeRow g ((ti + row) * n + tj) w (fun col => e row col)) f)
        ((ti + r) * n + (tj + c))
      = e r c := by
  induction L generalizing f with
  | nil => exact absurd hr (List.not_mem_nil r)
  | cons hd tl ih =>
    simp only [List.foldl_cons]
    by_cases hrT : r ∈ tl
    · exact ih _ hrT fun row hm => huniq row (List.mem_cons_of_mem hd hm)
    · have hhd : hd = r := by
        rcases List.mem_cons.mp hr with h | h
        · exact h.symm
        · exact absurd h hrT
      subst hhd
      rw [rows_fold_unchanged]
      · have : (ti + hd) * n + (tj + c) = ((ti + hd) * n + tj) + c := by omega
        rw [this, storeRow_at _ _ _ _ _ hc]
      · intro row hm htouch
        exact absurd (huniq row (List.mem_cons_of_mem hd hm) htouch) (fun h => hrT (h ▸ hm))

theorem storeTile_unchanged (f : ℕ → α) (n ti tj w : ℕ) (e : ℕ → ℕ → α) (idx : ℕ)
    (h : ¬coversTile n w (ti, tj) idx) : storeTile f n ti tj w e idx = f idx := by
  apply rows_fold_unchanged
  intro row hrow htouch
  rw [List.mem_range] at hrow
  refine h ⟨row, hrow, idx - ((ti + row) * n + tj), by omega, ?_⟩
  show idx = (ti + row) * n + (tj + (idx - ((ti + row) * n + tj)))
  omega

theorem storeTile_at (f : ℕ → α) (n ti tj w : ℕ) (e : ℕ → ℕ → α) (r c : ℕ)
    (hr : r < w) (hc : c < w) (hn : tj + w ≤ n) :
    storeTile f n ti tj w e ((ti + r) * n + (tj + c)) = e r c := by
  apply rows_fold_at n ti tj w e r c hc _ f (List.mem_range.mpr hr)
  intro row hrow htouch
  rw [List.mem_range] at hrow
  obtain ⟨h1, h2⟩ := htouch
  have hidx : (ti + row) * n + (tj + (((ti + r) * n + (tj + c)) - ((ti + row) * n + tj)))
      = (ti + r) * n + (tj + c) := by omega
  have hlt : tj + (((ti + r) * n + (tj + c)) - ((ti + row) * n + tj)) < n := by omega
  have := flatIdx_inj (n := n) hlt (by omega : tj + c < n) hidx
  omega

theorem runTiles_unchanged (add mul : α → α → α) (zero : α) (ts : List (ℕ × ℕ))
    (atv bv : ℕ → α) (m n k w : ℕ) (c : ℕ → α) (idx : ℕ)
    (h : ∀ t ∈ ts, ¬coversTile n w t idx) :
    runTiles add mul zero ts atv bv m n k w c idx = c idx := by
  induction ts generalizing c with
  | nil => rfl
  | cons hd tl ih =>
    show runTiles add mul zero tl atv bv m n k w
        (storeTile c n hd.1 hd.2 w (fmopaEntry add mul zero atv bv m n k hd.1 hd.2)) idx
      = c idx
    rw [ih _ fun t ht => h t (List.mem_cons_of_mem hd ht)]
    exact storeTile_unchanged _ _ _ _ _ _ _ (h hd (List.mem_cons_self hd tl))

theorem runTiles_at (add mul : α → α → α) (zero : α) (ts : List (ℕ × ℕ))
    (atv bv : ℕ → α) (m n k w : ℕ) (c : ℕ → α) (tgt : ℕ × ℕ) (r cc : ℕ)
    (hr : r < w) (hc : cc < w) (hn : tgt.2 + w ≤ n)
    (hmem : tgt ∈ ts)
    (huniq : ∀ t ∈ ts, coversTile n w t ((tgt.1 + r) * n + (tgt.2 + cc)) → t = tgt) :
    runTiles add mul zero ts atv bv m n k w c ((tgt.1 + r) * n + (tgt.2 + cc))
      = fmopaEntry add mul zero atv bv m n k tgt.1 tgt.2 r cc := by
  induction ts generalizing c with
  | nil => exact absurd hmem (List.not_mem_nil tgt)
  | cons hd tl ih =>
    show runTiles add mul zero tl atv bv m n k w
        (storeTile c n hd.1 hd.2 w (fmopaEntry add mul zero atv bv m n k hd.1 hd.2))
        ((tgt.1 + r) * n + (tgt.2 + cc))
      = fmopaEntry add mul zero atv bv m n k tgt.1 tgt.2 r cc
    by_cases hmT : tgt ∈ tl
    · exact ih _ hmT fun t ht => huniq t (List.mem_cons_of_mem hd ht)
    · have hhd : hd = tgt := by
        rcases List.mem_cons.mp hmem with h | h
        · exact h.symm
        · exact absurd h hmT
      subst hhd
      rw [runTiles_unchanged]
      · exact storeTile_at _ _ _ _ _ _ _ _ hr hc hn
      · intro t ht hcov
        exact absurd (huniq t (List.mem_cons_of_mem hd ht) hcov) (fun h => hmT (h ▸ ht))

end MatmulLemmas

section DriverLookup

variable {α : Type}

theorem lt_numTiles {w a m : ℕ} (hw : 0 < w) (h : w * a < m) : a < numTiles m w := by
  have e1 : (a + 1) * w = a * w + w := add_one_mul a w
  have e2 : a * w = w * a := Nat.mul_comm a w
  rw [numTiles, Nat.lt_iff_add_one_le, Nat.le_div_iff_mul_le hw]
  omega

theorem numTiles_lt {w a m : ℕ} (hw : 0 < w) (h : a < numTiles m w) : w * a < m := by
  rw [numTiles, Nat.lt_iff_add_one_le, Nat.le_div_iff_mul_le hw] at h
  have e1 : (a + 1) * w = a * w + w := add_one_mul a w
  have e2 : a * w = w * a := Nat.mul_comm a w
  omega

theorem tile_end_le {w a m : ℕ} (hw : 0 < w) (hdvd : w ∣ m) (h : w * a < m) :
    w * a + w ≤ m := by
  obtain ⟨q, rfl⟩ := hdvd
  have ha : a < q := Nat.lt_of_mul_lt_mul_left h
  have h2 : w * (a + 1) ≤ w * q := Nat.mul_le_mul_left w (by omega)
  have e1 : w * (a + 1) = w * a + w := Nat.mul_succ w a
  omega

theorem div_mul_le (i w : ℕ) : w * (i / w) ≤ i := by
  have := Nat.div_mul_le_self i w
  have e : i / w * w = w * (i / w) := Nat.mul_comm (i / w) w
  omega

/-- The flat-index decomposition of `i` by block size `w * q` and then
tile size `w` agrees with direct decomposition by `w`. -/
theorem div_decomp {w : ℕ} (hw : 0 < w) (q i : ℕ) :
    w * q * (i / (w * q)) + w * ((i % (w * q)) / w) = w * (i / w) := by
  have hiR : w * q * (i / (w * q)) + i % (w * q) = i := Nat.div_add_mod i (w * q)
  have h1 : i / w = q * (i / (w * q)) + (i % (w * q)) / w := by
    conv_lhs => rw [← hiR]
    rw [Nat.mul_assoc w q (i / (w * q)), Nat.mul_add_div hw]
  rw [h1, Nat.mul_add, ← Nat.mul_assoc]

theorem matmulTiles_mem {w m n i j : ℕ} (hw : 0 < w) (hi : i < m) (hj : j < n) :
    (w * (i / w), w * (j / w)) ∈ matmulTiles w m n := by
  simp only [matmulTiles, List.mem_flatMap, List.mem_map, List.mem_range]
  refine ⟨i / w, lt_numTiles hw (by have := div_mul_le i w; omega),
          j / w, lt_numTiles hw (by have := div_mul_le j w; omega), rfl⟩

theorem matmulTiles_uniq {w m n i j : ℕ} (hw : 0 < w) (hn : w ∣ n)
    (hj : j < n) :
    ∀ t ∈ matmulTiles w m n, coversTile n w t (i * n + j) →
      t = (w * (i / w), w * (j / w)) := by
  intro t ht hcov
  simp only [matmulTiles, List.mem_flatMap, List.mem_map, List.mem_range] at ht
  obtain ⟨tI, hI, tJ, hJ, rfl⟩ := ht
  obtain ⟨r, hr, c, hc, hidx⟩ := hcov
  replace hidx : i * n + j = (w * tI + r) * n + (w * tJ + c) := hidx
  have hjn : w * tJ + c < n := by
    have := tile_end_le hw hn (numTiles_lt hw hJ)
    omega
  obtain ⟨hieq, hjeq⟩ := flatIdx_inj (n := n) hj hjn hidx
  have hdi : i / w = tI := by
    rw [hieq, Nat.mul_add_div hw, Nat.div_eq_of_lt hr]
    omega
  have hdj : j / w = tJ := by
    rw [hjeq, Nat.mul_add_div hw, Nat.div_eq_of_lt hc]
    omega
  rw [hdi, hdj]

theorem matmulTiles_covered_form {w m n idx : ℕ} (hw : 0 < w) (hm : w ∣ m)
    (hn : w ∣ n) :
    ∀ t ∈ matmulTiles w m n, coversTile n w t idx →
      ∃ i, i < m ∧ ∃ j, j < n ∧ idx = i * n + j := by
  intro t ht hcov
  simp only [matmulTiles, List.mem_flatMap, List.mem_map, List.mem_range] at ht
  obtain ⟨tI, hI, tJ, hJ, rfl⟩ := ht
  obtain ⟨r, hr, c, hc, hidx⟩ := hcov
  replace hidx : idx = (w * tI + r) * n + (w * tJ + c) := hidx
  have h1 := tile_end_le hw hm (numTiles_lt hw hI)
  have h2 := tile_end_le hw hn (numTiles_lt hw hJ)
  exact ⟨w * tI + r, by omega, w * tJ + c, by omega, hidx⟩

theorem matmulGen_lookup (add mul : α → α → α) (zero : α)
    {w m n : ℕ} (atv bv c : ℕ → α) (k : ℤ) {i j : ℕ}
    (hw : 0 < w) (hm : w ∣ m) (hn : w ∣ n) (hi : i < m) (hj : j < n) :
    matmulGen add mul zero w atv bv c m n k (i * n + j)
      = fmopaEntry add mul zero atv bv m n k.toNat (w * (i / w)) (w * (j / w))
          (i % w) (j % w) := by
  have hi2 : w * (i / w) + i % w = i := Nat.div_add_mod i w
  have hj2 : w * (j / w) + j % w = j := Nat.div_add_mod j w
  have hidx : i * n + j = (w * (i / w) + i % w) * n + (w * (j / w) + j % w) := by
    rw [hi2, hj2]
  rw [hidx]
  exact runTiles_at add mul zero _ atv bv m n k.toNat w c (w * (i / w), w * (j / w))
    (i % w) (j % w) (Nat.mod_lt i hw) (Nat.mod_lt j hw)
    (by have : w * (j / w) < n := by have := div_mul_le j w; omega
        exact tile_end_le hw hn this)
    (matmulTiles_mem hw hi hj)
    (by have := matmulTiles_uniq (w := w) (m := m) (n := n) (i := i) (j := j) hw hn hj
        intro t ht hcov
        apply this t ht
        rwa [← hidx] at hcov)

end DriverLookup

section BlockedLookup

variable {α : Type}

theorem blockedTiles_mem {w bs m n i j : ℕ} (hw : 0 < w) (hbs : w ∣ bs)
    (hbs0 : 0 < bs) (hi : i < m) (hj : j < n) :
    (w * (i / w), w * (j / w)) ∈ blockedTiles w bs m n := by
  simp only [blockedTiles, List.mem_flatMap, List.mem_map, List.mem_range]
  refine ⟨i / bs, lt_numTiles hbs0 (by have := div_mul_le i bs; omega),
          j / bs, lt_numTiles hbs0 (by have := div_mul_le j bs; omega),
          (i % bs) / w, lt_numTiles hw ?_, (j % bs) / w, lt_numTiles hw ?_, ?_⟩
  · have h1 : bs * (i / bs) + i % bs = i := Nat.div_add_mod i bs
    have h2 : i % bs < bs := Nat.mod_lt i hbs0
    have h3 := div_mul_le (i % bs) w
    omega
  · have h1 : bs * (j / bs) + j % bs = j := Nat.div_add_mod j bs
    have h2 : j % bs < bs := Nat.mod_lt j hbs0
    have h3 := div_mul_le (j % bs) w
    omega
  · obtain ⟨q, rfl⟩ := hbs
    rw [div_decomp hw q i, div_decomp hw q j]

theorem blockedTiles_uniq {w bs m n i j : ℕ} (hw : 0 < w) (hbs : w ∣ bs)
    (hbs0 : 0 < bs) (hm : w ∣ m) (hn : w ∣ n) (hj : j < n) :
    ∀ t ∈ blockedTiles w bs m n, coversTile n w t (i * n + j) →
      t = (w * (i / w), w * (j / w)) := by
  intro t ht hcov
  simp only [blockedTiles, List.mem_flatMap, List.mem_map, List.mem_range] at ht
  obtain ⟨bI, hbI, bJ, hbJ, tI, htI, tJ, htJ, rfl⟩ := ht
  obtain ⟨r, hr, c, hc, hidx⟩ := hcov
  replace hidx : i * n + j = (bs * bI + w * tI + r) * n + (bs * bJ + w * tJ + c) := hidx
  -- block bases are inside the matrix
  have hmI : bs * bI < m := numTiles_lt hbs0 hbI
  have hnJ : bs * bJ < n := numTiles_lt hbs0 hbJ
  -- tile offsets fit in the (divisible) block length
  have hlenIdvd : w ∣ min (bs * bI + bs) m - bs * bI := by
    rcases le_total (bs * bI + bs) m with hle | hle
    · have hl : min (bs * bI + bs) m - bs * bI = bs := by omega
      rw [hl]; exact hbs
    · have hl : min (bs * bI + bs) m - bs * bI = m - bs * bI := by omega
      rw [hl]; exact Nat.dvd_sub' hm (hbs.mul_right bI)
  have hlenJdvd : w ∣ min (bs * bJ + bs) n - bs * bJ := by
    rcases le_total (bs * bJ + bs) n with hle | hle
    · have hl : min (bs * bJ + bs) n - bs * bJ = bs := by omega
      rw [hl]; exact hbs
    · have hl : min (bs * bJ + bs) n - bs * bJ = n - bs * bJ := by omega
      rw [hl]; exact Nat.dvd_sub' hn (hbs.mul_right bJ)
  have hwtI := tile_end_le hw hlenIdvd (numTiles_lt hw htI)
  have hwtJ := tile_end_le hw hlenJdvd (numTiles_lt hw htJ)
  have hjn : bs * bJ + w * tJ + c < n := by omega
  obtain ⟨hieq, hjeq⟩ := flatIdx_inj (n := n) hj hjn hidx
  -- recover the standard w-decomposition of i and j
  have hIin : w * tI + r < bs := by omega
  have hJin : w * tJ + c < bs := by omega
  have hidiv : i / bs = bI := by
    rw [hieq, Nat.add_assoc, Nat.mul_add_div hbs0, Nat.div_eq_of_lt hIin]
    omega
  have himod : i % bs = w * tI + r := by
    rw [hieq, Nat.add_assoc, Nat.mul_add_mod, Nat.mod_eq_of_lt hIin]
  have hjdiv : j / bs = bJ := by
    rw [hjeq, Nat.add_assoc, Nat.mul_add_div hbs0, Nat.div_eq_of_lt hJin]
    omega
  have hjmod : j % bs = w * tJ + c := by
    rw [hjeq, Nat.add_assoc, Nat.mul_add_mod, Nat.mod_eq_of_lt hJin]
  have hitile : (i % bs) / w = tI := by
    rw [himod, Nat.mul_add_div hw, Nat.div_eq_of_lt hr]
    omega
  have hjtile : (j % bs) / w = tJ := by
    rw [hjmod, Nat.mul_add_div hw, Nat.div_eq_of_lt hc]
    omega
  obtain ⟨q, rfl⟩ := hbs
  have e1 := div_decomp hw q i
  have e2 := div_decomp hw q j
  rw [hidiv, hitile] at e1
  rw [hjdiv, hjtile] at e2
  rw [← e1, ← e2]

theorem blockedTiles_covered_form {w bs m n idx : ℕ} (hw : 0 < w) (hbs : w ∣ bs)
    (hbs0 : 0 < bs) (hm : w ∣ m) (hn : w ∣ n) :
    ∀ t ∈ blockedTiles w bs m n, coversTile n w t idx →
      ∃ i, i < m ∧ ∃ j, j < n ∧ idx = i * n + j := by
  intro t ht hcov
  simp only [blockedTiles, List.mem_flatMap, List.mem_map, List.mem_range] at ht
  obtain ⟨bI, hbI, bJ, hbJ, tI, htI, tJ, htJ, rfl⟩ := ht
  obtain ⟨r, hr, c, hc, hidx⟩ := hcov
  replace hidx : idx = (bs * bI + w * tI + r) * n + (bs * bJ + w * tJ + c) := hidx
  have hmI : bs * bI < m := numTiles_lt hbs0 hbI
  have hnJ : bs * bJ < n := numTiles_lt hbs0 hbJ
  have hlenIdvd : w ∣ min (bs * bI + bs) m - bs * bI := by
    rcases le_total (bs * bI + bs) m with hle | hle
    · have hl : min (bs * bI + bs) m - bs * bI = bs := by omega
      rw [hl]; exact hbs
    · have hl : min (bs * bI + bs) m - bs * bI = m - bs * bI := by omega
      rw [hl]; exact Nat.dvd_sub' hm (hbs.mul_right bI)
  have hlenJdvd : w ∣ min (bs * bJ + bs) n - bs * bJ := by
    rcases le_total (bs * bJ + bs) n with hle | hle
    · have hl : min (bs * bJ + bs) n - bs * bJ = bs := by omega
      rw [hl]; exact hbs
    · have hl : min (bs * bJ + bs) n - bs * bJ = n - bs * bJ := by omega
      rw [hl]; exact Nat.dvd_sub' hn (hbs.mul_right bJ)
  have hwtI := tile_end_le hw hlenIdvd (numTiles_lt hw htI)
  have hwtJ := tile_end_le hw hlenJdvd (numTiles_lt hw htJ)
  exact ⟨bs * bI + w * tI + r, by omega, bs * bJ + w * tJ + c, by omega, hidx⟩

theorem blockedGen_lookup (add mul : α → α → α) (zero : α)
    {w bs m n : ℕ} (atv bv c : ℕ → α) (k : ℤ) {i j : ℕ}
    (hw : 0 < w) (hbs : w ∣ bs) (hbs0 : 0 < bs)
    (hm : w ∣ m) (hn : w ∣ n) (hi : i < m) (hj : j < n) :
    blockedGen add mul zero w bs atv bv c m n k (i * n + j)
      = fmopaEntry add mul zero atv bv m n k.toNat (w * (i / w)) (w * (j / w))
          (i % w) (j % w) := by
  have hi2 : w * (i / w) + i % w = i := Nat.div_add_mod i w
  have hj2 : w * (j / w) + j % w = j := Nat.div_add_mod j w
  have hidx : i * n + j = (w * (i / w) + i % w) * n + (w * (j / w) + j % w) := by
    rw [hi2, hj2]
  rw [hidx]
  exact runTiles_at add mul zero _ atv bv m n k.toNat w c (w * (i / w), w * (j / w))
    (i % w) (j % w) (Nat.mod_lt i hw) (Nat.mod_lt j hw)
    (by have : w * (j / w) < n := by have := div_mul_le j w; omega
        exact tile_end_le hw hn this)
    (blockedTiles_mem hw hbs hbs0 hi hj)
    (by have := @blockedTiles_uniq w bs m n i j hw hbs hbs0 hm hn hj
        intro t ht hcov
        apply this t ht
        rwa [← hidx] at hcov)

end BlockedLookup

/-!
### Matmul claims
-/

theorem foldl_add_range (g : ℕ → ℚ) :
    ∀ (k : ℕ) (a : ℚ),
      (List.range k).foldl (fun acc t => acc + g t) a = a + ∑ t ∈ Finset.range k, g t := by
  intro k
  induction k with
  | zero => simp
  | succ k ih =>
    intro a
    rw [List.range_succ, List.foldl_append, ih, Finset.sum_range_succ]
    simp only [List.foldl_cons, List.foldl_nil]
    ring

theorem fmopaEntry_rat (atv bv : ℕ → ℚ) (m n k ti tj r c : ℕ) :
    fmopaEntry (· + ·) (· * ·) 0 atv bv m n k ti tj r c
      = ∑ kk ∈ Finset.range k, atv (kk * m + (ti + r)) * bv (kk * n + (tj + c)) := by
  rw [fmopaEntry, foldl_add_range (fun kk => atv (kk * m + (ti + r)) * bv (kk * n + (tj + c))) k 0]
  ring

/-- C1 (and the f32 lookup used by other claims): the blocked driver
computes the naive triple-loop reference product. -/
theorem blockedmatmul_f32_entry (atv bv c : ℕ → ℚ) (m n : ℕ) (k : ℤ) (i j : ℕ)
    (hm : 16 ∣ m) (hn : 16 ∣ n) (hi : i < m) (hj : j < n) :
    blockedmatmul_fmopa_at_f32 atv bv c m n k (i * n + j)
      = matmulRef atv bv m n k.toNat i j := by
  rw [blockedmatmul_fmopa_at_f32,
    blockedGen_lookup (· + ·) (· * ·) 0 atv bv c k (by norm_num) ⟨3, rfl⟩ (by norm_num)
      hm hn hi hj,
    fmopaEntry_rat, matmulRef]
  rw [Nat.div_add_mod i 16, Nat.div_add_mod j 16]

theorem blockedmatmul_f64_entry (atv bv c : ℕ → ℚ) (m n : ℕ) (k : ℤ) (i j : ℕ)
    (hm : 8 ∣ m) (hn : 8 ∣ n) (hi : i < m) (hj : j < n) :
    blockedmatmul_fmopa_at_f64 atv bv c m n k (i * n + j)
      = matmulRef atv bv m n k.toNat i j := by
  rw [blockedmatmul_fmopa_at_f64,
    blockedGen_lookup (· + ·) (· * ·) 0 atv bv c k (by norm_num) ⟨6, rfl⟩ (by norm_num)
      hm hn hi hj,
    fmopaEntry_rat, matmulRef]
  rw [Nat.div_add_mod i 8, Nat.div_add_mod j 8]

theorem matmul_f32_entry (atv bv c : ℕ → ℚ) (m n : ℕ) (k : ℤ) (i j : ℕ)
    (hm : 16 ∣ m) (hn : 16 ∣ n) (hi : i < m) (hj : j < n) :
    matmul_fmopa_at_f32 atv bv c m n k (i * n + j)
      = matmulRef atv bv m n k.toNat i j := by
  rw [matmul_fmopa_at_f32,
    matmulGen_lookup (· + ·) (· * ·) 0 atv bv c k (by norm_num) hm hn hi hj,
    fmopaEntry_rat, matmulRef]
  rw [Nat.div_add_mod i 16, Nat.div_add_mod j 16]

theorem matmul_f64_entry (atv bv c : ℕ → ℚ) (m n : ℕ) (k : ℤ) (i j : ℕ)
    (hm : 8 ∣ m) (hn : 8 ∣ n) (hi : i < m) (hj : j < n) :
    matmul_fmopa_at_f64 atv bv c m n k (i * n + j)
      = matmulRef atv bv m n k.toNat i j := by
  rw [matmul_fmopa_at_f64,
    matmulGen_lookup (· + ·) (· * ·) 0 atv bv c k (by norm_num) hm hn hi hj,
    fmopaEntry_rat, matmulRef]
  rw [Nat.div_add_mod i 8, Nat.div_add_mod j 8]

/-- C1: for `M`, `N` multiples of the tile width (16 for f32, 8 for f64)
and any `K ≥ 0`, the blocked drivers `blockedmatmul_fmopa_at_f32` /
`blockedmatmul_fmopa_at_f64` write into every output entry `C[i,j]`
exactly the naive triple-loop reference `Σ_k AT[k,i] * B[k,j]`, the
tile being accumulated over the entire K dimension in ascending order.
In the exact-arithmetic idealisation the two agree exactly — in
particular within the stated relative-error tolerances. -/
theorem claim_C1_blocked_matmul_correct :
    (∀ (atv bv c : ℕ → ℚ) (m n : ℕ) (k : ℤ) (i j : ℕ),
      16 ∣ m → 16 ∣ n → i < m → j < n →
      blockedmatmul_fmopa_at_f32 atv bv c m n k (i * n + j)
        = matmulRef atv bv m n k.toNat i j)
    ∧ (∀ (atv bv c : ℕ → ℚ) (m n : ℕ) (k : ℤ) (i j : ℕ),
      8 ∣ m → 8 ∣ n → i < m → j < n →
      blockedmatmul_fmopa_at_f64 atv bv c m n k (i * n + j)
        = matmulRef atv bv m n k.toNat i j) :=
  ⟨fun atv bv c m n k i j hm hn hi hj => blockedmatmul_f32_entry atv bv c m n k i j hm hn hi hj,
   fun atv bv c m n k i j hm hn hi hj => blockedmatmul_f64_entry atv bv c m n k i j hm hn hi hj⟩

/-- Witness for C1 at a concrete instance: `m = n = 16`, `k = 1`,
`AT = B = 1` everywhere, evaluated at entry `(0, 0)`. -/
theorem claim_C1_witness :
    blockedmatmul_fmopa_at_f32 (fun _ => 1) (fun _ => 1) (fun _ => 0) 16 16 1 (0 * 16 + 0)
      = matmulRef (fun _ => 1) (fun _ => 1) 16 16 (1 : ℤ).toNat 0 0 :=
  claim_C1_blocked_matmul_correct.1 (fun _ => 1) (fun _ => 1) (fun _ => 0) 16 16 1 0 0
    ⟨1, rfl⟩ ⟨1, rfl⟩ (by norm_num) (by norm_num)

/-- C4: with `M`, `N` multiples of the tile width, the 48×48-blocked
driver and the non-blocked driver produce identical outputs at every
buffer index: varying the cache-block size only changes the order in
which independent tiles are visited, while each tile still sums the
full K range in ascending order.  Proved for the `ℚ`-instantiated
drivers via the generic tile-lookup lemmas (the same argument holds for
any arithmetic, since no reassociation is used). -/
theorem claim_C4_blocking_invariance :
    (∀ (atv bv c : ℕ → ℚ) (m n : ℕ) (k : ℤ) (idx : ℕ),
      16 ∣ m → 16 ∣ n →
      blockedmatmul_fmopa_at_f32 atv bv c m n k idx
        = matmul_fmopa_at_f32 atv bv c m n k idx)
    ∧ (∀ (atv bv c : ℕ → ℚ) (m n : ℕ) (k : ℤ) (idx : ℕ),
      8 ∣ m → 8 ∣ n →
      blockedmatmul_fmopa_at_f64 atv bv c m n k idx
        = matmul_fmopa_at_f64 atv bv c m n k idx) := by
  constructor
  · intro atv bv c m n k idx hm hn
    by_cases hcov : ∃ i, i < m ∧ ∃ j, j < n ∧ idx = i * n + j
    · obtain ⟨i, hi, j, hj, rfl⟩ := hcov
      rw [blockedmatmul_fmopa_at_f32,
        blockedGen_lookup (· + ·) (· * ·) 0 atv bv c k (by norm_num) ⟨3, rfl⟩ (by norm_num)
          hm hn hi hj,
        matmul_fmopa_at_f32,
        matmulGen_lookup (· + ·) (· * ·) 0 atv bv c k (by norm_num) hm hn hi hj]
    · rw [blockedmatmul_fmopa_at_f32, blockedGen,
        runTiles_unchanged _ _ _ _ _ _ _ _ _ _ _ _
          (fun t ht hc => hcov
            (blockedTiles_covered_form (by norm_num) ⟨3, rfl⟩ (by norm_num) hm hn t ht hc)),
        matmul_fmopa_at_f32, matmulGen,
        runTiles_unchanged _ _ _ _ _ _ _ _ _ _ _ _
          (fun t ht hc => hcov
            (matmulTiles_covered_form (by norm_num) hm hn t ht hc))]
  · intro atv bv c m n k idx hm hn
    by_cases hcov : ∃ i, i < m ∧ ∃ j, j < n ∧ idx = i * n + j
    · obtain ⟨i, hi, j, hj, rfl⟩ := hcov
      rw [blockedmatmul_fmopa_at_f64,
        blockedGen_lookup (· + ·) (· * ·) 0 atv bv c k (by norm_num) ⟨6, rfl⟩ (by norm_num)
          hm hn hi hj,
        matmul_fmopa_at_f64,
        matmulGen_lookup (· + ·) (· * ·) 0 atv bv c k (by norm_num) hm hn hi hj]
    · rw [blockedmatmul_fmopa_at_f64, blockedGen,
        runTiles_unchanged _ _ _ _ _ _ _ _ _ _ _ _
          (fun t ht hc => hcov
            (blockedTiles_covered_form (by norm_num) ⟨6, rfl⟩ (by norm_num) hm hn t ht hc)),
        matmul_fmopa_at_f64, matmulGen,
        runTiles_unchanged _ _ _ _ _ _ _ _ _ _ _ _
          (fun t ht hc => hcov
            (matmulTiles_covered_form (by norm_num) hm hn t ht hc))]

/-- Witness for C4 at a concrete instance. -/
theorem claim_C4_witness :
    blockedmatmul_fmopa_at_f32 (fun _ => 2) (fun _ => 3) (fun _ => 7) 16 16 2 5
      = matmul_fmopa_at_f32 (fun _ => 2) (fun _ => 3) (fun _ => 7) 16 16 2 5 :=
  claim_C4_blocking_invariance.1 (fun _ => 2) (fun _ => 3) (fun _ => 7) 16 16 2 5
    ⟨1, rfl⟩ ⟨1, rfl⟩



/-- C8: with `AT` the 16×16 identity (so `A = I`), any 16×16 `B` and
`M = N = K = 16`, the non-blocked f32 driver writes exactly `B` into
`C` (exact equality in the exact-arithmetic idealisation — the only
nonzero contribution to entry `(i, j)` is `1 * B[i, j]`). -/
theorem claim_C8_identity_times_B (bv c : ℕ → ℚ) (i j : ℕ)
    (hi : i < 16) (hj : j < 16) :
    matmul_fmopa_at_f32 atId bv c 16 16 16 (i * 16 + j) = bv (i * 16 + j) := by
  rw [matmul_f32_entry atId bv c 16 16 16 i j ⟨1, rfl⟩ ⟨1, rfl⟩ hi hj, matmulRef]
  rw [show ((16 : ℤ).toNat) = 16 from rfl]
  have hterm : ∀ kk ∈ Finset.range 16,
      atId (kk * 16 + i) * bv (kk * 16 + j)
        = (if kk = i then (1 : ℚ) else 0) * bv (kk * 16 + j) := by
    intro kk _
    have h1 : (kk * 16 + i) / 16 = kk := by
      rw [Nat.mul_comm kk 16, Nat.mul_add_div (by norm_num), Nat.div_eq_of_lt hi]
      omega
    have h2 : (kk * 16 + i) % 16 = i := by
      rw [Nat.mul_comm kk 16, Nat.mul_add_mod, Nat.mod_eq_of_lt hi]
    simp only [atId, h1, h2]
  rw [Finset.sum_congr rfl hterm, Finset.sum_eq_single i]
  · simp
  · intro b _ hb
    simp [hb]
  · intro h
    exact absurd (Finset.mem_range.mpr hi) h

/-- Witness for C8 at a concrete `B`. -/
theorem claim_C8_witness :
    matmul_fmopa_at_f32 atId (fun idx => (idx : ℚ)) (fun _ => 0) 16 16 16 (2 * 16 + 3)
      = ((2 * 16 + 3 : ℕ) : ℚ) :=
  claim_C8_identity_times_B (fun idx => (idx : ℚ)) (fun _ => 0) 2 3
    (by norm_num) (by norm_num)

/-- C10: for `m`, `n` positive multiples of the tile width but `k ≤ 0`,
none of the four drivers is a no-op: the K loop runs zero times, so the
zeroed accumulator is stored and every in-range entry of `C` is
overwritten with `0` (there is no degenerate-dimension early return). -/
theorem claim_C10_nonpositive_k_zeroes_C :
    (∀ (atv bv c : ℕ → ℚ) (m n : ℕ) (k : ℤ) (i j : ℕ),
      16 ∣ m → 16 ∣ n → k ≤ 0 → i < m → j < n →
      matmul_fmopa_at_f32 atv bv c m n k (i * n + j) = 0)
    ∧ (∀ (atv bv c : ℕ → ℚ) (m n : ℕ) (k : ℤ) (i j : ℕ),
      8 ∣ m → 8 ∣ n → k ≤ 0 → i < m → j < n →
      matmul_fmopa_at_f64 atv bv c m n k (i * n + j) = 0)
    ∧ (∀ (atv bv c : ℕ → ℚ) (m n : ℕ) (k : ℤ) (i j : ℕ),
      16 ∣ m → 16 ∣ n → k ≤ 0 → i < m → j < n →
      blockedmatmul_fmopa_at_f32 atv bv c m n k (i * n + j) = 0)
    ∧ (∀ (atv bv c : ℕ → ℚ) (m n : ℕ) (k : ℤ) (i j : ℕ),
      8 ∣ m → 8 ∣ n → k ≤ 0 → i < m → j < n →
      blockedmatmul_fmopa_at_f64 atv bv c m n k (i * n + j) = 0) := by
  refine ⟨?_, ?_, ?_, ?_⟩ <;> intro atv bv c m n k i j hm hn hk hi hj
  · rw [matmul_f32_entry atv bv c m n k i j hm hn hi hj, matmulRef,
      Int.toNat_eq_zero.mpr hk]
    simp
  · rw [matmul_f64_entry atv bv c m n k i j hm hn hi hj, matmulRef,
      Int.toNat_eq_zero.mpr hk]
    simp
  · rw [blockedmatmul_f32_entry atv bv c m n k i j hm hn hi hj, matmulRef,
      Int.toNat_eq_zero.mpr hk]
    simp
  · rw [blockedmatmul_f64_entry atv bv c m n k i j hm hn hi hj, matmulRef,
      Int.toNat_eq_zero.mpr hk]
    simp

/-- Witness for C10: `k = -3`, entry `(0, 0)` of a 16×16 f32 output is
overwritten with zero. -/
theorem claim_C10_witness :
    matmul_fmopa_at_f32 (fun _ => 5) (fun _ => 5) (fun _ => 9) 16 16 (-3) (0 * 16 + 0) = 0 :=
  claim_C10_nonpositive_k_zeroes_C.1 (fun _ => 5) (fun _ => 5) (fun _ => 9) 16 16 (-3) 0 0
    ⟨1, rfl⟩ ⟨1, rfl⟩ (by norm_num) (by norm_num) (by norm_num)


theorem f16_roundtrip (h : ℕ) (hh : h < 65536) : f16narrow (f16widen h) = h := by
  simp only [f16widen, f16narrow]
  have e1 : (h * 8192 + 939524096 + 4294967296 - 939524096) % 4294967296 = h * 8192 := by
    omega
  rw [e1]
  have e2 : h * 8192 / 8192 % 2 = h % 2 := by omega
  rw [e2]
  have e3 : (h * 8192 + (h % 2 + 4095)) % 4294967296 = h * 8192 + (h % 2 + 4095) := by
    omega
  rw [e3]
  have e4 : (h * 8192 + (h % 2 + 4095)) / 8192 = h := by
    rw [Nat.mul_comm h 8192, Nat.mul_add_div (by norm_num : (0 : ℕ) < 8192)]
    omega
  rw [e4, Nat.mod_eq_of_lt hh]

theorem bf16_roundtrip (h : ℕ) (hh : h < 65536) : bf16narrow (bf16widen h) = h := by
  simp only [bf16widen, bf16narrow]
  have e1 : h * 65536 / 65536 % 2 = h % 2 := by omega
  rw [e1]
  have e2 : (h * 65536 + (h % 2 + 32767)) % 4294967296 = h * 65536 + (h % 2 + 32767) := by
    omega
  rw [e2]
  have e4 : (h * 65536 + (h % 2 + 32767)) / 65536 = h := by
    rw [Nat.mul_comm h 65536, Nat.mul_add_div (by norm_num : (0 : ℕ) < 65536)]
    omega
  rw [e4, Nat.mod_eq_of_lt hh]

theorem f16narrow_rne (x : ℕ) (hlo : 939524096 ≤ x) (hhi : x < 2147483648) :
    f16narrow x = rne (x - 939524096) 4096 % 65536 := by
  simp only [f16narrow, rne, show 2 * 4096 = 8192 from rfl]
  have e1 : (x + 4294967296 - 939524096) % 4294967296 = x - 939524096 := by omega
  rw [e1]
  obtain ⟨q, r, hr, hd⟩ : ∃ q r, r < 8192 ∧ x - 939524096 = 8192 * q + r :=
    ⟨(x - 939524096) / 8192, (x - 939524096) % 8192, Nat.mod_lt _ (by norm_num), by omega⟩
  rw [hd]
  have hq : (8192 * q + r) / 8192 = q := by
    rw [Nat.mul_add_div (by norm_num : (0 : ℕ) < 8192)]
    omega
  have hm : (8192 * q + r) % 8192 = r := by
    rw [Nat.mul_add_mod, Nat.mod_eq_of_lt hr]
  rw [hq, hm]
  have e2 : (8192 * q + r + (q % 2 + 4095)) % 4294967296
      = 8192 * q + r + (q % 2 + 4095) := by omega
  rw [e2]
  have e3 : (8192 * q + r + (q % 2 + 4095)) / 8192 = q + (r + (q % 2 + 4095)) / 8192 := by
    rw [show 8192 * q + r + (q % 2 + 4095) = 8192 * q + (r + (q % 2 + 4095)) from by omega,
      Nat.mul_add_div (by norm_num : (0 : ℕ) < 8192)]
  rw [e3]
  rcases Nat.lt_trichotomy r 4096 with hc | hc | hc
  · rw [if_neg (by rintro (h | ⟨h1, _⟩) <;> omega)]
    have hdval : (r + (q % 2 + 4095)) / 8192 = 0 := by omega
    rw [hdval, Nat.add_zero]
  · rcases (by omega : q % 2 = 0 ∨ q % 2 = 1) with hb | hb
    · rw [if_neg (by rintro (h | ⟨_, h2⟩) <;> omega)]
      have hdval : (r + (q % 2 + 4095)) / 8192 = 0 := by omega
      rw [hdval, Nat.add_zero]
    · rw [if_pos (Or.inr ⟨hc, hb⟩)]
      have hdval : (r + (q % 2 + 4095)) / 8192 = 1 := by omega
      rw [hdval]
  · rw [if_pos (Or.inl hc)]
    have hdval : (r + (q % 2 + 4095)) / 8192 = 1 := by omega
    rw [hdval]

theorem bf16narrow_rne (x : ℕ) (hhi : x < 2147483648) :
    bf16narrow x = rne x 32768 % 65536 := by
  simp only [bf16narrow, rne, show 2 * 32768 = 65536 from rfl]
  obtain ⟨q, r, hr, hd⟩ : ∃ q r, r < 65536 ∧ x = 65536 * q + r :=
    ⟨x / 65536, x % 65536, Nat.mod_lt _ (by norm_num), by omega⟩
  rw [hd]
  have hq : (65536 * q + r) / 65536 = q := by
    rw [Nat.mul_add_div (by norm_num : (0 : ℕ) < 65536)]
    omega
  have hm : (65536 * q + r) % 65536 = r := by
    rw [Nat.mul_add_mod, Nat.mod_eq_of_lt hr]
  rw [hq, hm]
  have e2 : (65536 * q + r + (q % 2 + 32767)) % 4294967296
      = 65536 * q + r + (q % 2 + 32767) := by omega
  rw [e2]
  have e3 : (65536 * q + r + (q % 2 + 32767)) / 65536
      = q + (r + (q % 2 + 32767)) / 65536 := by
    rw [show 65536 * q + r + (q % 2 + 32767) = 65536 * q + (r + (q % 2 + 32767)) from by omega,
      Nat.mul_add_div (by norm_num : (0 : ℕ) < 65536)]
  rw [e3]
  rcases Nat.lt_trichotomy r 32768 with hc | hc | hc
  · rw [if_neg (by rintro (h | ⟨h1, _⟩) <;> omega)]
    have hdval : (r + (q % 2 + 32767)) / 65536 = 0 := by omega
    rw [hdval, Nat.add_zero]
  · rcases (by omega : q % 2 = 0 ∨ q % 2 = 1) with hb | hb
    · rw [if_neg (by rintro (h | ⟨_, h2⟩) <;> omega)]
      have hdval : (r + (q % 2 + 32767)) / 65536 = 0 := by omega
      rw [hdval, Nat.add_zero]
    · rw [if_pos (Or.inr ⟨hc, hb⟩)]
      have hdval : (r + (q % 2 + 32767)) / 65536 = 1 := by omega
      rw [hdval]
  · rw [if_pos (Or.inl hc)]
    have hdval : (r + (q % 2 + 32767)) / 65536 = 1 := by omega
    rw [hdval]

/-- C5 (corrected): the original claim — every f32 value exactly
representable in the 16-bit format round-trips through
narrow-then-widen — is false for the f16 path, because the widening
`(h << 13) + (112 << 23)` folds the f16 sign bit into the f32 exponent
field, so zero, negative values and denormals do not round-trip (the
counterexample below exhibits `+0.0f` and `-1.0f`).  What does hold,
and is proved here: (a) every f32 bit pattern in the image of the
widening map is reproduced exactly by narrowing followed by widening,
for both the f16 format (13-bit shift with `112·2^23` bias adjustment)
and the bf16 format (16-bit shift; its widening image covers all
16-bit patterns, so the bf16 round-trip is unrestricted); (b) on every
pattern in the normalised range, the narrowing conversions round to
nearest with ties to even (`rne`). -/
theorem claim_C5_mixed_precision_roundtrip :
    (∀ x : ℕ, (∃ h, h < 65536 ∧ x = f16widen h) → f16widen (f16narrow x) = x)
    ∧ (∀ x : ℕ, (∃ h, h < 65536 ∧ x = bf16widen h) → bf16widen (bf16narrow x) = x)
    ∧ (∀ x : ℕ, 939524096 ≤ x → x < 2147483648 →
        f16narrow x = rne (x - 939524096) 4096 % 65536)
    ∧ (∀ x : ℕ, x < 2147483648 → bf16narrow x = rne x 32768 % 65536) := by
  refine ⟨?_, ?_, f16narrow_rne, bf16narrow_rne⟩
  · rintro x ⟨h, hh, rfl⟩
    rw [f16_roundtrip h hh]
  · rintro x ⟨h, hh, rfl⟩
    rw [bf16_roundtrip h hh]

/-- Witness for C5: the f16 pattern `0x3C00` (1.0), its widened f32
pattern `0x3F800000`, and a non-representable pattern rounding to
nearest even. -/
theorem claim_C5_witness :
    f16widen (f16narrow 1065353216) = 1065353216
    ∧ bf16widen (bf16narrow 1065353216) = 1065353216
    ∧ f16narrow 1065357312 = rne (1065357312 - 939524096) 4096 % 65536
    ∧ bf16narrow 1065386003 = rne 1065386003 32768 % 65536 :=
  ⟨claim_C5_mixed_precision_roundtrip.1 1065353216 ⟨15360, by norm_num, by norm_num [f16widen]⟩,
   claim_C5_mixed_precision_roundtrip.2.1 1065353216 ⟨16256, by norm_num, by norm_num [bf16widen]⟩,
   claim_C5_mixed_precision_roundtrip.2.2.1 1065357312 (by norm_num) (by norm_num),
   claim_C5_mixed_precision_roundtrip.2.2.2 1065386003 (by norm_num)⟩

/-- Counterexample for C5's original claim: `+0.0f` (pattern `0`) and
`-1.0f` (pattern `0xBF800000 = 3212836864`) are exactly representable
in the f16 format (`0x0000` and `0xBC00`), yet the kernel's
narrow-then-widen does not reproduce them: the widening folds the f16
sign bit into the f32 exponent field, so `+0.0f` comes back as `2.0f`
(pattern `0x40000000 = 1073741824`) and `-1.0f` as `+1.0f` (pattern
`0x3F800000 = 1065353216`). -/
theorem claim_C5_counterexample :
    f16widen (f16narrow 0) = 1073741824 ∧ (1073741824 : ℕ) ≠ 0
    ∧ f16widen (f16narrow 3212836864) = 1065353216
    ∧ (1065353216 : ℕ) ≠ 3212836864 :=
  ⟨rfl, by norm_num, rfl, by norm_num⟩


/-- C7: a call with `seqLen <= 0`, `kvLen <= 0` or `headDim <= 0`
returns immediately: no error is reported and the output buffer is
returned unchanged (the model only ever writes the output buffer, so
all other buffers are trivially untouched). -/
theorem claim_C7_degenerate_noop :
    (∀ (q kt v : ℕ → FVal) (mask : Option (ℕ → FVal)) (out0 : ℕ → FVal)
        (seqLen kvLen headDim : ℤ) (scale : FVal),
      seqLen ≤ 0 ∨ kvLen ≤ 0 ∨ headDim ≤ 0 →
      sdpa_fmopa_f32 q kt v mask out0 seqLen kvLen headDim scale = out0)
    ∧ (∀ (q kt v : ℕ → FVal) (mask : Option (ℕ → FVal)) (out0 : ℕ → FVal)
        (seqLen kvLen headDim : ℤ) (scale : FVal),
      seqLen ≤ 0 ∨ kvLen ≤ 0 ∨ headDim ≤ 0 →
      sdpa_fmopa_f64 q kt v mask out0 seqLen kvLen headDim scale = out0) := by
  constructor <;>
  · intro q kt v mask out0 seqLen kvLen headDim scale h
    simp only [sdpa_fmopa_f32, sdpa_fmopa_f64, sdpa_fmopa]
    rcases h with h | h | h <;> split_ifs <;> first | rfl | omega

/-- Witness for C7: `seqLen = -1`. -/
theorem claim_C7_witness :
    sdpa_fmopa_f32 (fun _ => FVal.fin 1) (fun _ => FVal.fin 1) (fun _ => FVal.fin 1)
      none (fun _ => FVal.fin 42) (-1) 1 1 (FVal.fin 1) = (fun _ => FVal.fin 42) :=
  claim_C7_degenerate_noop.1 (fun _ => FVal.fin 1) (fun _ => FVal.fin 1) (fun _ => FVal.fin 1)
    none (fun _ => FVal.fin 42) (-1) 1 1 (FVal.fin 1) (Or.inl (by norm_num))

/-!
### Bridge lemmas: the `FVal` computations on finite values agree with
the `ℚ` computations.
-/

theorem hornerF_foldl_fin (L : List ℚ) (r : ℚ) :
    ∀ a : ℚ,
      L.foldl (fun ap cc => FVal.add (FVal.fin cc) (FVal.mul ap (FVal.fin r))) (FVal.fin a)
        = FVal.fin (L.foldl (fun ap cc => cc + ap * r) a) := by
  induction L with
  | nil => intro a; rfl
  | cons c T ih =>
    intro a
    simp only [List.foldl_cons, FVal.mul_fin_fin, FVal.add_fin_fin]
    exact ih _

theorem hornerF_fin (cs : List ℚ) (r : ℚ) :
    hornerF cs (FVal.fin r) = FVal.fin (hornerQ cs r) := by
  cases cs with
  | nil => rfl
  | cons c rest => exact hornerF_foldl_fin rest r c

theorem pexpF_fin (P : SdpaParams) (x : ℚ) : pexpF P (FVal.fin x) = FVal.fin (pexpQ P x) := by
  simp only [pexpF, pexpQ, truncQ]
  by_cases hc : x < P.clampMin
  · rw [if_pos (by simp [hc]), if_pos hc]
    by_cases hg : 0 ≤ P.clampMin * P.invLn2
    · rw [if_pos (by simp [hg]), if_pos hg]
      simp [hornerF_fin]
    · rw [if_neg (by simp [hg]), if_neg hg]
      simp [hornerF_fin]
  · rw [if_neg (by simp [hc]), if_neg hc]
    by_cases hg : 0 ≤ x * P.invLn2
    · rw [if_pos (by simp [hg]), if_pos hg]
      simp [hornerF_fin]
    · rw [if_neg (by simp [hg]), if_neg hg]
      simp [hornerF_fin]

/-!
### Locality of the per-row update

Rows of a Q block own disjoint state: `m_arr[row]`, `l_arr[row]` and the
output segment `[(qi+row)*headDim, (qi+row+1)*headDim)`.  The update of
one row reads and writes only its own slots, so the per-row result can
be extracted from the fold over the tile's row loop.
-/

theorem zeroSeg_inside (f : ℕ → FVal) (off len idx : ℕ)
    (h : off ≤ idx ∧ idx < off + len) : zeroSeg f off len idx = FVal.fin 0 := if_pos h

theorem mulSeg_inside (f : ℕ → FVal) (off len : ℕ) (a : FVal) (idx : ℕ)
    (h : off ≤ idx ∧ idx < off + len) : mulSeg f off len a idx = FVal.mul (f idx) a :=
  if_pos h

theorem mulSeg_outside (f : ℕ → FVal) (off len : ℕ) (a : FVal) (idx : ℕ)
    (h : ¬(off ≤ idx ∧ idx < off + len)) : mulSeg f off len a idx = f idx := if_neg h

theorem addMulSeg_inside (f : ℕ → FVal) (off len : ℕ) (wv : FVal) (src : ℕ → FVal)
    (srcOff idx : ℕ) (h : off ≤ idx ∧ idx < off + len) :
    addMulSeg f off len wv src srcOff idx
      = FVal.add (f idx) (FVal.mul wv (src (srcOff + (idx - off)))) := if_pos h

theorem addMulSeg_outside (f : ℕ → FVal) (off len : ℕ) (wv : FVal) (src : ℕ → FVal)
    (srcOff idx : ℕ) (h : ¬(off ≤ idx ∧ idx < off + len)) :
    addMulSeg f off len wv src srcOff idx = f idx := if_neg h

/-- Two rows of a Q block own disjoint output segments. -/
theorem rowSeg_disjoint {hD qi row row' p : ℕ} (hp : p < hD) (hne : row' ≠ row) :
    ¬((qi + row') * hD ≤ (qi + row) * hD + p ∧
      (qi + row) * hD + p < (qi + row') * hD + hD) := by
  rintro ⟨h1, h2⟩
  have hidx : (qi + row') * hD + (((qi + row) * hD + p) - (qi + row') * hD)
      = (qi + row) * hD + p := by omega
  have hlt : (((qi + row) * hD + p) - (qi + row') * hD) < hD := by omega
  have := flatIdx_inj (n := hD) hlt hp hidx
  omega

/-- The column-accumulation loop does not write outside the row's
segment. -/
theorem sdpaAccumCols_outside (P : SdpaParams) (I : SdpaIn) (qi kj row : ℕ) (mNew : FVal)
    (f : ℕ → FVal) (idx : ℕ)
    (h : ¬((qi + row) * I.headDim.toNat ≤ idx ∧
           idx < (qi + row) * I.headDim.toNat + I.headDim.toNat)) :
    sdpaAccumCols P I qi kj row mNew f idx = f idx := by
  rw [sdpaAccumCols]
  generalize (List.range (min P.w (I.kvLen - (kj : ℤ)).toNat)) = L
  induction L generalizing f with
  | nil => rfl
  | cons hd tl ih =>
    simp only [List.foldl_cons]
    rw [ih]
    split
    · rfl
    · exact addMulSeg_outside _ _ _ _ _ _ _ h

/-- The column-accumulation result at an index depends only on the
input buffer's value at that index. -/
theorem sdpaAccumCols_local (P : SdpaParams) (I : SdpaIn) (qi kj row : ℕ) (mNew : FVal)
    (f1 f2 : ℕ → FVal) (idx : ℕ) (h : f1 idx = f2 idx) :
    sdpaAccumCols P I qi kj row mNew f1 idx = sdpaAccumCols P I qi kj row mNew f2 idx := by
  rw [sdpaAccumCols, sdpaAccumCols]
  generalize (List.range (min P.w (I.kvLen - (kj : ℤ)).toNat)) = L
  induction L generalizing f1 f2 with
  | nil => exact h
  | cons hd tl ih =>
    simp only [List.foldl_cons]
    apply ih
    split
    · exact h
    · by_cases hseg : (qi + row) * I.headDim.toNat ≤ idx ∧
          idx < (qi + row) * I.headDim.toNat + I.headDim.toNat
      · rw [addMulSeg_inside _ _ _ _ _ _ _ hseg, addMulSeg_inside _ _ _ _ _ _ _ hseg, h]
      · rw [addMulSeg_outside _ _ _ _ _ _ _ hseg, addMulSeg_outside _ _ _ _ _ _ _ hseg, h]

theorem sdpaRowStep_marr (P : SdpaParams) (I : SdpaIn) (qi kj row : ℕ) (st : SdpaSt) :
    (sdpaRowStep P I qi kj row st).marr
      = Function.update st.marr row (sdpaRowMax P I qi kj row (st.marr row)) := rfl

theorem sdpaRowStep_larr (P : SdpaParams) (I : SdpaIn) (qi kj row : ℕ) (st : SdpaSt) :
    (sdpaRowStep P I qi kj row st).larr
      = Function.update st.larr row
          (FVal.add
            (FVal.mul (sdpaAlpha P (st.marr row) (sdpaRowMax P I qi kj row (st.marr row)))
              (st.larr row))
            (sdpaRowSum P I qi kj row (sdpaRowMax P I qi kj row (st.marr row)))) := rfl

theorem sdpaRowStep_out (P : SdpaParams) (I : SdpaIn) (qi kj row : ℕ) (st : SdpaSt) :
    (sdpaRowStep P I qi kj row st).out
      = sdpaAccumCols P I qi kj row (sdpaRowMax P I qi kj row (st.marr row))
          (mulSeg st.out ((qi + row) * I.headDim.toNat) I.headDim.toNat
            (sdpaAlpha P (st.marr row) (sdpaRowMax P I qi kj row (st.marr row)))) := rfl

/-- A step of another row does not change this row's slots. -/
theorem sdpaRowStep_other (P : SdpaParams) (I : SdpaIn) (qi kj row row' : ℕ) (st : SdpaSt)
    (hne : row' ≠ row) :
    (sdpaRowStep P I qi kj row' st).marr row = st.marr row
    ∧ (sdpaRowStep P I qi kj row' st).larr row = st.larr row
    ∧ ∀ p, p < I.headDim.toNat →
        (sdpaRowStep P I qi kj row' st).out ((qi + row) * I.headDim.toNat + p)
          = st.out ((qi + row) * I.headDim.toNat + p) := by
  refine ⟨?_, ?_, ?_⟩
  · rw [sdpaRowStep_marr]
    exact Function.update_noteq (Ne.symm hne) _ _
  · rw [sdpaRowStep_larr]
    exact Function.update_noteq (Ne.symm hne) _ _
  · intro p hp
    rw [sdpaRowStep_out,
      sdpaAccumCols_outside _ _ _ _ _ _ _ _ (rowSeg_disjoint hp hne),
      mulSeg_outside _ _ _ _ _ (rowSeg_disjoint hp hne)]

/-- A row's step reads only the row's own slots. -/
theorem sdpaRowStep_reads_own (P : SdpaParams) (I : SdpaIn) (qi kj row : ℕ)
    (st1 st2 : SdpaSt)
    (hm : st1.marr row = st2.marr row) (hl : st1.larr row = st2.larr row)
    (ho : ∀ p, p < I.headDim.toNat →
      st1.out ((qi + row) * I.headDim.toNat + p) = st2.out ((qi + row) * I.headDim.toNat + p)) :
    (sdpaRowStep P I qi kj row st1).marr row = (sdpaRowStep P I qi kj row st2).marr row
    ∧ (sdpaRowStep P I qi kj row st1).larr row = (sdpaRowStep P I qi kj row st2).larr row
    ∧ ∀ p, p < I.headDim.toNat →
        (sdpaRowStep P I qi kj row st1).out ((qi + row) * I.headDim.toNat + p)
          = (sdpaRowStep P I qi kj row st2).out ((qi + row) * I.headDim.toNat + p) := by
  refine ⟨?_, ?_, ?_⟩
  · rw [sdpaRowStep_marr, sdpaRowStep_marr, Function.update_same, Function.update_same, hm]
  · rw [sdpaRowStep_larr, sdpaRowStep_larr, Function.update_same, Function.update_same,
      hm, hl]
  · intro p hp
    rw [sdpaRowStep_out, sdpaRowStep_out, hm]
    apply sdpaAccumCols_local
    have hseg : (qi + row) * I.headDim.toNat ≤ (qi + row) * I.headDim.toNat + p ∧
        (qi + row) * I.headDim.toNat + p < (qi + row) * I.headDim.toNat + I.headDim.toNat := by
      omega
    rw [mulSeg_inside _ _ _ _ _ hseg, mulSeg_inside _ _ _ _ _ hseg, ho p hp]

/-- Folding the per-row update over a duplicate-free list of rows: this
row's slots are those produced by its own single step from the initial
state. -/
theorem sdpaRowsFold_extract (P : SdpaParams) (I : SdpaIn) (qi kj row : ℕ) :
    ∀ (L : List ℕ), L.Nodup → row ∈ L → ∀ (st : SdpaSt),
      ((L.foldl (fun s r => sdpaRowStep P I qi kj r s) st).marr row
          = (sdpaRowStep P I qi kj row st).marr row)
      ∧ ((L.foldl (fun s r => sdpaRowStep P I qi kj r s) st).larr row
          = (sdpaRowStep P I qi kj row st).larr row)
      ∧ ∀ p, p < I.headDim.toNat →
          (L.foldl (fun s r => sdpaRowStep P I qi kj r s) st).out
              ((qi + row) * I.headDim.toNat + p)
            = (sdpaRowStep P I qi kj row st).out ((qi + row) * I.headDim.toNat + p) := by
  intro L
  induction L with
  | nil => intro _ hmem; exact absurd hmem (List.not_mem_nil row)
  | cons hd tl ih =>
    intro hnd hmem st
    simp only [List.foldl_cons]
    by_cases hrT : row ∈ tl
    · have hne : hd ≠ row := by
        intro h
        subst h
        exact (List.nodup_cons.mp hnd).1 hrT
      obtain ⟨hm, hl, ho⟩ := sdpaRowStep_other P I qi kj row hd st hne
      obtain ⟨im, il, io⟩ := ih (List.nodup_cons.mp hnd).2 hrT (sdpaRowStep P I qi kj hd st)
      obtain ⟨rm, rl, ro⟩ := sdpaRowStep_reads_own P I qi kj row
        (sdpaRowStep P I qi kj hd st) st hm hl ho
      exact ⟨im.trans rm, il.trans rl, fun p hp => (io p hp).trans (ro p hp)⟩
    · have hhd : hd = row := by
        rcases List.mem_cons.mp hmem with h | h
        · exact h.symm
        · exact absurd h hrT
      subst hhd
      -- the remaining rows never touch this row's slots
      clear hmem ih
      have : ∀ (tl' : List ℕ), hd ∉ tl' → ∀ (st' : SdpaSt),
          ((tl'.foldl (fun s r => sdpaRowStep P I qi kj r s) st').marr hd = st'.marr hd)
          ∧ ((tl'.foldl (fun s r => sdpaRowStep P I qi kj r s) st').larr hd = st'.larr hd)
          ∧ ∀ p, p < I.headDim.toNat →
              (tl'.foldl (fun s r => sdpaRowStep P I qi kj r s) st').out
                  ((qi + hd) * I.headDim.toNat + p)
                = st'.out ((qi + hd) * I.headDim.toNat + p) := by
        intro tl'
        induction tl' with
        | nil => exact fun _ st' => ⟨rfl, rfl, fun _ _ => rfl⟩
        | cons x xs ihx =>
          intro hnm st'
          simp only [List.foldl_cons]
          have hxne : x ≠ hd := fun h => hnm (h ▸ List.mem_cons_self x xs)
          obtain ⟨hm, hl, ho⟩ := sdpaRowStep_other P I qi kj hd x st' hxne
          obtain ⟨im, il, io⟩ := ihx (fun h => hnm (List.mem_cons_of_mem x h))
            (sdpaRowStep P I qi kj x st')
          exact ⟨im.trans hm, il.trans hl, fun p hp => (io p hp).trans (ho p hp)⟩
      exact this tl (List.nodup_cons.mp hnd).1 (sdpaRowStep P I qi kj hd st)

/-!
### C6: the online-softmax invariant
-/

theorem foldl_max_le (s : ℕ → FVal) :
    ∀ (L : List ℕ) (mx : FVal),
      FVal.le mx (L.foldl (fun a c => if FVal.lt a (s c) then s c else a) mx) := by
  intro L
  induction L with
  | nil => exact fun mx => FVal.le_refl mx
  | cons hd tl ih =>
    intro mx
    simp only [List.foldl_cons]
    refine FVal.le_trans' ?_ (ih _)
    split
    · next h => exact FVal.le_of_lt' h
    · exact FVal.le_refl mx

/-- The row-max fold never decreases the running max. -/
theorem sdpaRowMax_le (P : SdpaParams) (I : SdpaIn) (qi kj row : ℕ) (mPrev : FVal) :
    FVal.le mPrev (sdpaRowMax P I qi kj row mPrev) :=
  foldl_max_le _ _ mPrev

theorem sdpaStateAfter_succ (P : SdpaParams) (I : SdpaIn) (qi : ℕ) (out0 : ℕ → FVal)
    (t : ℕ) :
    sdpaStateAfter P I qi out0 (t + 1)
      = sdpaTileStep P I qi (P.w * t) (sdpaStateAfter P I qi out0 t) := by
  rw [sdpaStateAfter, List.range_succ, List.foldl_append]
  rfl

/-- C6: across successive key/value column-tile iterations of
`sdpa_fmopa` (any parameter set, so in particular `sdpa_fmopa_f32` and
`sdpa_fmopa_f64`), for every processed row `r` of the Q block: the
running max `m_arr[r]` is monotonically non-decreasing and is exactly
the row-max fold of the new tile's scores; the running sum is rescaled
by `alpha = exp(m_prev - m_new)` (defined as 1 when `m_prev = -inf`)
and then incremented by the tile's weight row-sum; and the output row
is rescaled by the same `alpha` and then accumulated with the tile's
weighted V rows — the numerically-stable rescale-as-you-go step. -/
theorem claim_C6_online_softmax_invariant (P : SdpaParams) (I : SdpaIn) (qi : ℕ)
    (out0 : ℕ → FVal) (t r : ℕ)
    (hr : r < min P.w (I.seqLen - (qi : ℤ)).toNat) :
    FVal.le ((sdpaStateAfter P I qi out0 t).marr r)
      ((sdpaStateAfter P I qi out0 (t + 1)).marr r)
    ∧ (sdpaStateAfter P I qi out0 (t + 1)).marr r
        = sdpaRowMax P I qi (P.w * t) r ((sdpaStateAfter P I qi out0 t).marr r)
    ∧ (sdpaStateAfter P I qi out0 (t + 1)).larr r
        = FVal.add
            (FVal.mul
              (sdpaAlpha P ((sdpaStateAfter P I qi out0 t).marr r)
                (sdpaRowMax P I qi (P.w * t) r ((sdpaStateAfter P I qi out0 t).marr r)))
              ((sdpaStateAfter P I qi out0 t).larr r))
            (sdpaRowSum P I qi (P.w * t) r
              (sdpaRowMax P I qi (P.w * t) r ((sdpaStateAfter P I qi out0 t).marr r)))
    ∧ ∀ p, p < I.headDim.toNat →
        (sdpaStateAfter P I qi out0 (t + 1)).out ((qi + r) * I.headDim.toNat + p)
          = sdpaAccumCols P I qi (P.w * t) r
              (sdpaRowMax P I qi (P.w * t) r ((sdpaStateAfter P I qi out0 t).marr r))
              (mulSeg ((sdpaStateAfter P I qi out0 t).out)
                ((qi + r) * I.headDim.toNat) I.headDim.toNat
                (sdpaAlpha P ((sdpaStateAfter P I qi out0 t).marr r)
                  (sdpaRowMax P I qi (P.w * t) r ((sdpaStateAfter P I qi out0 t).marr r))))
              ((qi + r) * I.headDim.toNat + p) := by
  rw [sdpaStateAfter_succ]
  have ht : sdpaTileStep P I qi (P.w * t) (sdpaStateAfter P I qi out0 t)
      = (List.range (min P.w (I.seqLen - (qi : ℤ)).toNat)).foldl
          (fun s row => sdpaRowStep P I qi (P.w * t) row s)
          (sdpaStateAfter P I qi out0 t) := rfl
  rw [ht]
  obtain ⟨em, el, eo⟩ := sdpaRowsFold_extract P I qi (P.w * t) r
    (List.range (min P.w (I.seqLen - (qi : ℤ)).toNat)) (List.nodup_range _)
    (List.mem_range.mpr hr) (sdpaStateAfter P I qi out0 t)
  refine ⟨?_, ?_, ?_, ?_⟩
  · rw [em, sdpaRowStep_marr, Function.update_same]
    exact sdpaRowMax_le P I qi (P.w * t) r _
  · rw [em, sdpaRowStep_marr, Function.update_same]
  · rw [el, sdpaRowStep_larr, Function.update_same]
  · intro p hp
    rw [eo p hp, sdpaRowStep_out]

/-- Witness for C6 at a concrete instance (f32 parameters, 1×1×1
attention, first tile). -/
theorem claim_C6_witness :
    FVal.le ((sdpaStateAfter sdpaParamsF32
        ⟨fun _ => FVal.fin 1, fun _ => FVal.fin 1, fun _ => FVal.fin 1, none,
          FVal.fin 1, 1, 1, 1⟩ 0 (fun _ => FVal.fin 0) 0).marr 0)
      ((sdpaStateAfter sdpaParamsF32
        ⟨fun _ => FVal.fin 1, fun _ => FVal.fin 1, fun _ => FVal.fin 1, none,
          FVal.fin 1, 1, 1, 1⟩ 0 (fun _ => FVal.fin 0) 1).marr 0) :=
  (claim_C6_online_softmax_invariant sdpaParamsF32
    ⟨fun _ => FVal.fin 1, fun _ => FVal.fin 1, fun _ => FVal.fin 1, none,
      FVal.fin 1, 1, 1, 1⟩ 0 (fun _ => FVal.fin 0) 0 0 (by norm_num [sdpaParamsF32])).1

/-!
### C3: fully-masked row

If every mask entry of a query row is `-inf`, the running max stays
`-inf`, so the exponential argument is `(-inf) - (-inf) = NaN`; the NaN
survives the clamp comparison, poisons the polynomial, the running sum
and the output row, and the `l == 0` short-circuit does not fire.  The
spec (and the short-circuit's evident intent) says the row must come
out all zero; the code produces NaN. -/
theorem claim_C3_fully_masked_row_is_nan :
    sdpa_fmopa_f32 (fun _ => FVal.fin 1) (fun _ => FVal.fin 1) (fun _ => FVal.fin 1)
      (some (fun _ => FVal.ninf)) (fun _ => FVal.fin 0) 1 1 1 (FVal.fin 1) 0
      = FVal.nan := by
  rfl


theorem finStep_max (a b : ℚ) :
    (if FVal.lt (FVal.fin a) (FVal.fin b) then FVal.fin b else FVal.fin a)
      = FVal.fin (max a b) := by
  by_cases h : a < b
  · simp [FVal.lt_fin_fin, h, max_eq_right h.le]
  · simp [FVal.lt_fin_fin, h, max_eq_left (le_of_not_lt h)]

theorem foldl_max_skip (s : ℕ → FVal) :
    ∀ (L : List ℕ), (∀ c ∈ L, s c = FVal.ninf) → ∀ (a : FVal),
      L.foldl (fun mx c => if FVal.lt mx (s c) then s c else mx) a = a := by
  intro L
  induction L with
  | nil => intro _ a; rfl
  | cons hd tl ih =>
    intro h a
    simp only [List.foldl_cons, h hd (List.mem_cons_self hd tl), FVal.lt_any_ninf]
    exact ih (fun c hc => h c (List.mem_cons_of_mem hd hc)) a

theorem foldl_max_fin (s : ℕ → FVal) (g : ℕ → ℚ) :
    ∀ (kN : ℕ), 0 < kN → (∀ c, c < kN → s c = FVal.fin (g c)) →
      (List.range kN).foldl (fun mx c => if FVal.lt mx (s c) then s c else mx) FVal.ninf
        = FVal.fin ((List.range kN).foldl (fun a c => max a (g c)) (g 0)) := by
  intro kN
  induction kN with
  | zero => intro h; omega
  | succ n ih =>
    intro _ hfin
    cases n with
    | zero =>
      simp only [show List.range 1 = [0] from rfl, List.foldl_cons, List.foldl_nil,
        hfin 0 (by norm_num), FVal.lt_ninf_fin, if_true, max_self]
    | succ n' =>
      rw [List.range_succ, List.foldl_append, List.foldl_append,
        ih (by omega) (fun c hc => hfin c (by omega))]
      simp only [List.foldl_cons, List.foldl_nil, hfin (n' + 1) (by omega)]
      exact finStep_max _ _

theorem foldl_sum_skip (cN : ℕ) (pr : ℕ → FVal) :
    ∀ (L : List ℕ), (∀ c ∈ L, cN ≤ c) → ∀ (a : FVal),
      L.foldl (fun acc c => if cN ≤ c then acc else FVal.add acc (pr c)) a = a := by
  intro L
  induction L with
  | nil => intro _ a; rfl
  | cons hd tl ih =>
    intro h a
    simp only [List.foldl_cons, if_pos (h hd (List.mem_cons_self hd tl))]
    exact ih (fun c hc => h c (List.mem_cons_of_mem hd hc)) a

theorem foldl_sum_fin (cN : ℕ) (pr : ℕ → FVal) (g : ℕ → ℚ)
    (hfin : ∀ c, c < cN → pr c = FVal.fin (g c)) :
    ∀ (n : ℕ), n ≤ cN → ∀ (a : ℚ),
      (List.range n).foldl (fun acc c => if cN ≤ c then acc else FVal.add acc (pr c))
          (FVal.fin a)
        = FVal.fin (a + ∑ c ∈ Finset.range n, g c) := by
  intro n
  induction n with
  | zero => intro _ a; simp
  | succ m ih =>
    intro hm a
    rw [List.range_succ, List.foldl_append, ih (by omega)]
    simp only [List.foldl_cons, List.foldl_nil, if_neg (by omega : ¬ cN ≤ m),
      hfin m (by omega), FVal.add_fin_fin, Finset.sum_range_succ]
    rw [add_assoc]

theorem foldl_addF_fin (g : ℕ → ℚ) :
    ∀ (L : List ℕ) (a : ℚ),
      L.foldl (fun acc t => FVal.add acc (FVal.fin (g t))) (FVal.fin a)
        = FVal.fin (L.foldl (fun acc t => acc + g t) a) := by
  intro L
  induction L with
  | nil => intro a; rfl
  | cons hd tl ih =>
    intro a
    simp only [List.foldl_cons, FVal.add_fin_fin]
    exact ih _

/-- The score-tile entry for an in-range row is the finite dot product. -/
theorem sdpaScoreEntry_fin (I : SdpaIn) (qQ ktQ : ℕ → ℚ)
    (hq : ∀ i, I.q i = FVal.fin (qQ i)) (hkt : ∀ i, I.kt i = FVal.fin (ktQ i))
    (qi kj row col : ℕ) (hrow : ((qi + row : ℕ) : ℤ) < I.seqLen) :
    sdpaScoreEntry I qi kj row col
      = FVal.fin (∑ d ∈ Finset.range I.headDim.toNat,
          qQ ((qi + row) * I.headDim.toNat + d) * ktQ (d * I.kvLen.toNat + (kj + col))) := by
  rw [sdpaScoreEntry]
  simp only [if_pos hrow, hq, hkt, FVal.mul_fin_fin]
  rw [foldl_addF_fin
    (fun dd => qQ ((qi + row) * I.headDim.toNat + dd) * ktQ (dd * I.kvLen.toNat + (kj + col))),
    foldl_add_range, zero_add]

/-- Columns past `kvLen` are forced to `-inf`. -/
theorem sdpaMasked_ninf (I : SdpaIn) (qi kj row col : ℕ)
    (hcol : I.kvLen ≤ ((kj + col : ℕ) : ℤ)) :
    sdpaMasked I qi kj row col = FVal.ninf := by
  rw [sdpaMasked, if_pos hcol]

/-- In-range masked scores are finite and equal the reference score
(at `qi = kj = 0`). -/
theorem sdpaMasked_fin (I : SdpaIn) (qQ ktQ mq : ℕ → ℚ) (scaleQ : ℚ)
    (hq : ∀ i, I.q i = FVal.fin (qQ i)) (hkt : ∀ i, I.kt i = FVal.fin (ktQ i))
    (hscale : I.scale = FVal.fin scaleQ)
    (hmask : (I.mask = none ∧ ∀ i, mq i = 0)
      ∨ ∃ mk, I.mask = some mk ∧ ∀ i, mk i = FVal.fin (mq i))
    (row col : ℕ) (hrow : ((row : ℕ) : ℤ) < I.seqLen) (hcol : ((col : ℕ) : ℤ) < I.kvLen) :
    sdpaMasked I 0 0 row col
      = FVal.fin (sdpaRefScore qQ ktQ mq I.kvLen.toNat I.headDim.toNat scaleQ row col) := by
  rw [sdpaMasked, if_neg (by push_neg; omega)]
  have hrow' : (((0 + row : ℕ) : ℕ) : ℤ) < I.seqLen := by omega
  rw [sdpaScoreEntry_fin I qQ ktQ hq hkt 0 0 row col hrow', hscale]
  simp only [Nat.zero_add]
  rcases hmask with ⟨hnone, hmq⟩ | ⟨mk, hsome, hmk⟩
  · rw [hnone]
    simp only [FVal.mul_fin_fin]
    rw [sdpaRefScore, hmq (row * I.kvLen.toNat + col), add_zero]
  · rw [hsome]
    simp only [FVal.mul_fin_fin, hmk, FVal.add_fin_fin]
    rw [sdpaRefScore]

/-- In-range weights are finite: the exponential of the score minus the
(finite) new max. -/
theorem sdpaPRow_fin (P : SdpaParams) (I : SdpaIn) (qQ ktQ mq : ℕ → ℚ) (scaleQ M : ℚ)
    (hq : ∀ i, I.q i = FVal.fin (qQ i)) (hkt : ∀ i, I.kt i = FVal.fin (ktQ i))
    (hscale : I.scale = FVal.fin scaleQ)
    (hmask : (I.mask = none ∧ ∀ i, mq i = 0)
      ∨ ∃ mk, I.mask = some mk ∧ ∀ i, mk i = FVal.fin (mq i))
    (row col : ℕ) (hrow : ((row : ℕ) : ℤ) < I.seqLen) (hcol : ((col : ℕ) : ℤ) < I.kvLen) :
    sdpaPRow P I 0 0 row col (FVal.fin M)
      = FVal.fin (pexpQ P
          (sdpaRefScore qQ ktQ mq I.kvLen.toNat I.headDim.toNat scaleQ row col - M)) := by
  rw [sdpaPRow, if_neg (by push_neg; omega),
    sdpaMasked_fin I qQ ktQ mq scaleQ hq hkt hscale hmask row col hrow hcol,
    FVal.sub_fin_fin, pexpF_fin]

/-- Every in-range score is bounded by the reference row max. -/
theorem refMax_ge (g : ℕ → ℚ) :
    ∀ (kN : ℕ) (c : ℕ), c < kN →
      g c ≤ (List.range kN).foldl (fun a x => max a (g x)) (g 0) := by
  intro kN
  induction kN with
  | zero => intro c hc; omega
  | succ n ih =>
    intro c hc
    rw [List.range_succ, List.foldl_append]
    simp only [List.foldl_cons, List.foldl_nil]
    rcases Nat.lt_or_ge c n with h | h
    · exact le_trans (ih c h) (le_max_left _ _)
    · have : c = n := by omega
      subst this
      exact le_max_right _ _

/-- Value of the column-accumulation loop at a point of the row's
output segment: the input value plus the weighted sum of V entries. -/
theorem sdpaAccumCols_at (P : SdpaParams) (I : SdpaIn) (qi kj row p : ℕ)
    (hp : p < I.headDim.toNat) (mNew : FVal) (wq vQ : ℕ → ℚ) (kN : ℕ)
    (hlen : min P.w (I.kvLen - (kj : ℤ)).toNat = kN)
    (hv : ∀ idx, I.v idx = FVal.fin (vQ idx))
    (hwq : ∀ c, c < kN → sdpaPRow P I qi kj row c mNew = FVal.fin (wq c)) :
    ∀ (f : ℕ → FVal) (a : ℚ),
      f ((qi + row) * I.headDim.toNat + p) = FVal.fin a →
      sdpaAccumCols P I qi kj row mNew f ((qi + row) * I.headDim.toNat + p)
        = FVal.fin (a + ∑ c ∈ Finset.range kN,
            wq c * vQ ((kj + c) * I.headDim.toNat + p)) := by
  simp only [sdpaAccumCols, hlen]
  have main : ∀ n, n ≤ kN → ∀ (f : ℕ → FVal) (a : ℚ),
      f ((qi + row) * I.headDim.toNat + p) = FVal.fin a →
      ((List.range n).foldl
        (fun g col =>
          if sdpaPRow P I qi kj row col mNew = FVal.fin 0 then g
          else addMulSeg g ((qi + row) * I.headDim.toNat) I.headDim.toNat
            (sdpaPRow P I qi kj row col mNew) I.v ((kj + col) * I.headDim.toNat)) f)
          ((qi + row) * I.headDim.toNat + p)
        = FVal.fin (a + ∑ c ∈ Finset.range n, wq c * vQ ((kj + c) * I.headDim.toNat + p)) := by
    intro n
    induction n with
    | zero =>
      intro _ f a hf
      rw [Finset.sum_range_zero, add_zero]
      exact hf
    | succ m ih =>
      intro hm f a hf
      rw [List.range_succ, List.foldl_append]
      simp only [List.foldl_cons, List.foldl_nil]
      have hg := ih (by omega) f a hf
      split
      · next h0 =>
        have hwm : wq m = 0 := by
          have := (hwq m (by omega)).symm.trans h0
          exact FVal.fin.inj this
        rw [hg, Finset.sum_range_succ, hwm, zero_mul, add_zero]
      · next h0 =>
        have hseg : (qi + row) * I.headDim.toNat ≤ (qi + row) * I.headDim.toNat + p ∧
            (qi + row) * I.headDim.toNat + p
              < (qi + row) * I.headDim.toNat + I.headDim.toNat := by omega
        rw [addMulSeg_inside _ _ _ _ _ _ _ hseg, hg,
          show (qi + row) * I.headDim.toNat + p - (qi + row) * I.headDim.toNat = p from by omega,
          hv, hwq m (by omega), FVal.mul_fin_fin, FVal.add_fin_fin,
          Finset.sum_range_succ, add_assoc]
  exact main kN le_rfl

/-- Value of the final normalisation at a point of row `i`'s output
segment. -/
theorem sdpaFinalize_at (P : SdpaParams) (I : SdpaIn) (qi : ℕ) (st : SdpaSt) (i p : ℕ)
    (hi : i < min P.w (I.seqLen - (qi : ℤ)).toNat) (hp : p < I.headDim.toNat) :
    sdpaFinalize P I qi st ((qi + i) * I.headDim.toNat + p)
      = if st.larr i = FVal.fin 0 then st.out ((qi + i) * I.headDim.toNat + p)
        else FVal.mul (st.out ((qi + i) * I.headDim.toNat + p))
          (FVal.div (FVal.fin 1) (st.larr i)) := by
  rw [sdpaFinalize]
  have pres : ∀ (L' : List ℕ), (∀ r ∈ L', r ≠ i) → ∀ (f : ℕ → FVal),
      (L'.foldl (fun f r =>
          if st.larr r = FVal.fin 0 then f
          else mulSeg f ((qi + r) * I.headDim.toNat) I.headDim.toNat
            (FVal.div (FVal.fin 1) (st.larr r))) f) ((qi + i) * I.headDim.toNat + p)
        = f ((qi + i) * I.headDim.toNat + p) := by
    intro L'
    induction L' with
    | nil => intro _ f; rfl
    | cons hd tl ih =>
      intro h f
      simp only [List.foldl_cons]
      rw [ih (fun r hr => h r (List.mem_cons_of_mem hd hr))]
      split
      · rfl
      · exact mulSeg_outside _ _ _ _ _
          (rowSeg_disjoint hp (h hd (List.mem_cons_self hd tl)))
  have key : ∀ (L : List ℕ), L.Nodup → i ∈ L → ∀ (f : ℕ → FVal),
      (L.foldl (fun f r =>
          if st.larr r = FVal.fin 0 then f
          else mulSeg f ((qi + r) * I.headDim.toNat) I.headDim.toNat
            (FVal.div (FVal.fin 1) (st.larr r))) f) ((qi + i) * I.headDim.toNat + p)
        = if st.larr i = FVal.fin 0 then f ((qi + i) * I.headDim.toNat + p)
          else FVal.mul (f ((qi + i) * I.headDim.toNat + p))
            (FVal.div (FVal.fin 1) (st.larr i)) := by
    intro L
    induction L with
    | nil => intro _ hmem; exact absurd hmem (List.not_mem_nil i)
    | cons hd tl ih =>
      intro hnd hmem f
      simp only [List.foldl_cons]
      by_cases hiT : i ∈ tl
      · have hne : hd ≠ i := by
          intro h
          subst h
          exact (List.nodup_cons.mp hnd).1 hiT
        have hstep : (if st.larr hd = FVal.fin 0 then f
            else mulSeg f ((qi + hd) * I.headDim.toNat) I.headDim.toNat
              (FVal.div (FVal.fin 1) (st.larr hd))) ((qi + i) * I.headDim.toNat + p)
            = f ((qi + i) * I.headDim.toNat + p) := by
          split
          · rfl
          · exact mulSeg_outside _ _ _ _ _ (rowSeg_disjoint hp hne)
        rw [ih (List.nodup_cons.mp hnd).2 hiT, hstep]
      · have hhd : hd = i := by
          rcases List.mem_cons.mp hmem with h | h
          · exact h.symm
          · exact absurd h hiT
        subst hhd
        rw [pres tl (fun r hr h => (List.nodup_cons.mp hnd).1 (h ▸ hr))]
        by_cases hL : st.larr hd = FVal.fin 0
        · rw [if_pos hL, if_pos hL]
        · rw [if_neg hL, if_neg hL]
          exact mulSeg_inside _ _ _ _ _ (by omega)
  exact key (List.range (min P.w (I.seqLen - (qi : ℤ)).toNat)) (List.nodup_range _)
    (List.mem_range.mpr hi) st.out

theorem FVal_div_fin_fin (a b : ℚ) :
    FVal.div (FVal.fin a) (FVal.fin b)
      = if b = 0 then (if a = 0 then FVal.nan else if 0 < a then FVal.pinf else FVal.ninf)
        else FVal.fin (a / b) := rfl

/-- Small-size flash-attention equivalence, generic in the parameter
set: with a single key/value column tile (`kvLen ≤ w`), a single Q
block (`seqLen ≤ w`), finite inputs, and a positive exponential, the
driver's output row equals the direct reference computation
`softmax(scale·Q·Kᵗ + mask)·V`. -/
theorem sdpa_small_matches_reference (P : SdpaParams) (I : SdpaIn)
    (qQ ktQ vQ mq : ℕ → ℚ) (scaleQ : ℚ) (out0 : ℕ → FVal)
    (hs0 : 0 < I.seqLen) (hsw : I.seqLen ≤ (P.w : ℤ))
    (hk0 : 0 < I.kvLen) (hkw : I.kvLen ≤ (P.w : ℤ))
    (hd0 : 0 < I.headDim)
    (hq : ∀ i, I.q i = FVal.fin (qQ i)) (hkt : ∀ i, I.kt i = FVal.fin (ktQ i))
    (hv : ∀ i, I.v i = FVal.fin (vQ i)) (hscale : I.scale = FVal.fin scaleQ)
    (hmask : (I.mask = none ∧ ∀ i, mq i = 0)
      ∨ ∃ mk, I.mask = some mk ∧ ∀ i, mk i = FVal.fin (mq i))
    (hpos : ∀ x : ℚ, x ≤ 0 → 0 < pexpQ P x)
    (i p : ℕ) (hi : (i : ℤ) < I.seqLen) (hp : (p : ℤ) < I.headDim) :
    sdpa_fmopa P I out0 (i * I.headDim.toNat + p)
      = FVal.fin (sdpaRefOut P qQ ktQ vQ mq I.kvLen.toNat I.headDim.toNat scaleQ i p) := by
  have hpN : p < I.headDim.toNat := by omega
  have hkN0 : 0 < I.kvLen.toNat := by omega
  have hrc : min P.w (I.seqLen - ((0 : ℕ) : ℤ)).toNat = I.seqLen.toNat := by omega
  -- guards do not fire
  rw [sdpa_fmopa, if_neg (by omega), if_neg (by omega), if_neg (by omega)]
  -- a single Q block and a single K/V tile
  have h1 : numTiles I.seqLen.toNat P.w = 1 := by
    rw [numTiles]
    exact Nat.div_eq_of_lt_le (by omega) (by omega)
  have h2 : numTiles I.kvLen.toNat P.w = 1 := by
    rw [numTiles]
    exact Nat.div_eq_of_lt_le (by omega) (by omega)
  rw [h1]
  simp only [show List.range 1 = [0] from rfl, List.foldl_cons, List.foldl_nil, Nat.mul_zero]
  rw [sdpaBlock, h2]
  have hst : sdpaStateAfter P I 0 out0 1
      = sdpaTileStep P I 0 0 (sdpaBlockInit P I 0 out0) := by
    rw [sdpaStateAfter]
    simp only [show List.range 1 = [0] from rfl, List.foldl_cons, List.foldl_nil, Nat.mul_zero]
  rw [hst,
    show i * I.headDim.toNat + p = (0 + i) * I.headDim.toNat + p from by rw [Nat.zero_add],
    sdpaFinalize_at P I 0 _ i p (by omega) hpN]
  -- extract row i from the row fold
  obtain ⟨em, el, eo⟩ := sdpaRowsFold_extract P I 0 0 i
    (List.range (min P.w (I.seqLen - ((0 : ℕ) : ℤ)).toNat)) (List.nodup_range _)
    (List.mem_range.mpr (by omega)) (sdpaBlockInit P I 0 out0)
  -- initial slots of row i
  have hminit : (sdpaBlockInit P I 0 out0).marr i = FVal.ninf := rfl
  have hlinit : (sdpaBlockInit P I 0 out0).larr i = FVal.fin 0 := rfl
  have hoinit : (sdpaBlockInit P I 0 out0).out ((0 + i) * I.headDim.toNat + p)
      = FVal.fin 0 := by
    rw [show (sdpaBlockInit P I 0 out0).out
        = zeroSeg out0 (0 * I.headDim.toNat)
            (min P.w (I.seqLen - ((0 : ℕ) : ℤ)).toNat * I.headDim.toNat) from rfl, hrc]
    refine zeroSeg_inside _ _ _ _ ⟨by omega, ?_⟩
    have e1 : (i + 1) * I.headDim.toNat ≤ I.seqLen.toNat * I.headDim.toNat :=
      Nat.mul_le_mul_right _ (by omega)
    have e2 : (i + 1) * I.headDim.toNat = i * I.headDim.toNat + I.headDim.toNat :=
      Nat.succ_mul i _
    have e3 : (0 + i) * I.headDim.toNat = i * I.headDim.toNat := by rw [Nat.zero_add]
    omega
  -- the row max is the (finite) reference row max
  have halpha : ∀ X, sdpaAlpha P FVal.ninf X = FVal.fin 1 := fun X => by
    rw [sdpaAlpha, if_pos rfl]
  have hM : sdpaRowMax P I 0 0 i FVal.ninf
      = FVal.fin (sdpaRefMax qQ ktQ mq I.kvLen.toNat I.headDim.toNat scaleQ i) := by
    rw [sdpaRowMax,
      show P.w = I.kvLen.toNat + (P.w - I.kvLen.toNat) from by omega,
      List.range_add, List.foldl_append,
      foldl_max_fin (sdpaMasked I 0 0 i)
        (fun c => sdpaRefScore qQ ktQ mq I.kvLen.toNat I.headDim.toNat scaleQ i c)
        I.kvLen.toNat hkN0
        (fun c hc => sdpaMasked_fin I qQ ktQ mq scaleQ hq hkt hscale hmask i c
          (by omega) (by omega)),
      foldl_max_skip (sdpaMasked I 0 0 i) _
        (fun c hc => by
          obtain ⟨u, hu, rfl⟩ := List.mem_map.mp hc
          exact sdpaMasked_ninf I 0 0 i _ (by omega)),
      sdpaRefMax]
  -- the tile's weight row-sum
  have hwq : ∀ c, c < I.kvLen.toNat →
      sdpaPRow P I 0 0 i c
          (FVal.fin (sdpaRefMax qQ ktQ mq I.kvLen.toNat I.headDim.toNat scaleQ i))
        = FVal.fin (sdpaRefWeight P qQ ktQ mq I.kvLen.toNat I.headDim.toNat scaleQ i c) :=
    fun c hc => by
      rw [sdpaPRow_fin P I qQ ktQ mq scaleQ _ hq hkt hscale hmask i c (by omega) (by omega),
        sdpaRefWeight]
  have hS : sdpaRowSum P I 0 0 i
        (FVal.fin (sdpaRefMax qQ ktQ mq I.kvLen.toNat I.headDim.toNat scaleQ i))
      = FVal.fin (0 + ∑ c ∈ Finset.range I.kvLen.toNat,
          sdpaRefWeight P qQ ktQ mq I.kvLen.toNat I.headDim.toNat scaleQ i c) := by
    rw [sdpaRowSum]
    have hcond : ∀ col : ℕ, (I.kvLen ≤ (((0 : ℕ) + col : ℕ) : ℤ)) ↔ (I.kvLen.toNat ≤ col) := by
      intro col
      omega
    simp only [hcond]
    rw [show P.w = I.kvLen.toNat + (P.w - I.kvLen.toNat) from by omega,
      List.range_add, List.foldl_append,
      foldl_sum_fin I.kvLen.toNat _
        (fun c => sdpaRefWeight P qQ ktQ mq I.kvLen.toNat I.headDim.toNat scaleQ i c)
        (fun c hc => hwq c hc)
        I.kvLen.toNat le_rfl 0,
      foldl_sum_skip _ _ _
        (fun c hc => by
          obtain ⟨u, hu, rfl⟩ := List.mem_map.mp hc
          omega)]
  -- the running sum of row i after the tile
  have hlv : (sdpaTileStep P I 0 0 (sdpaBlockInit P I 0 out0)).larr i
      = FVal.fin (1 * 0 + (0 + ∑ c ∈ Finset.range I.kvLen.toNat,
          sdpaRefWeight P qQ ktQ mq I.kvLen.toNat I.headDim.toNat scaleQ i c)) := by
    have el' : (sdpaTileStep P I 0 0 (sdpaBlockInit P I 0 out0)).larr i
        = (sdpaRowStep P I 0 0 i (sdpaBlockInit P I 0 out0)).larr i := el
    rw [el', sdpaRowStep_larr, Function.update_same, hminit, hlinit, hM, halpha, hS,
      FVal.mul_fin_fin, FVal.add_fin_fin]
  -- the output entry of row i after the tile
  have hov : (sdpaTileStep P I 0 0 (sdpaBlockInit P I 0 out0)).out
        ((0 + i) * I.headDim.toNat + p)
      = FVal.fin (0 * 1 + ∑ c ∈ Finset.range I.kvLen.toNat,
          sdpaRefWeight P qQ ktQ mq I.kvLen.toNat I.headDim.toNat scaleQ i c
            * vQ ((0 + c) * I.headDim.toNat + p)) := by
    have eo' : (sdpaTileStep P I 0 0 (sdpaBlockInit P I 0 out0)).out
        ((0 + i) * I.headDim.toNat + p)
        = (sdpaRowStep P I 0 0 i (sdpaBlockInit P I 0 out0)).out
          ((0 + i) * I.headDim.toNat + p) := eo p hpN
    rw [eo', sdpaRowStep_out, hminit, hM, halpha]
    refine sdpaAccumCols_at P I 0 0 i p hpN _ _ vQ I.kvLen.toNat (by omega) hv hwq _ (0 * 1) ?_
    rw [mulSeg_inside _ _ _ _ _ ⟨by omega, by omega⟩, hoinit, FVal.mul_fin_fin]
  rw [hlv, hov]
  -- positivity of the running sum
  have hSpos : 0 < ∑ c ∈ Finset.range I.kvLen.toNat,
      sdpaRefWeight P qQ ktQ mq I.kvLen.toNat I.headDim.toNat scaleQ i c := by
    refine Finset.sum_pos (fun c hc => ?_) (Finset.nonempty_range_iff.mpr (by omega))
    refine hpos _ (sub_nonpos.mpr ?_)
    rw [sdpaRefMax]
    exact refMax_ge _ I.kvLen.toNat c (Finset.mem_range.mp hc)
  have hne' : (1 * 0 + (0 + ∑ c ∈ Finset.range I.kvLen.toNat,
      sdpaRefWeight P qQ ktQ mq I.kvLen.toNat I.headDim.toNat scaleQ i c) : ℚ) ≠ 0 := by
    intro h
    rw [one_mul, zero_add, zero_add] at h
    exact absurd h (ne_of_gt hSpos)
  rw [if_neg (fun h => hne' (FVal.fin.inj h)), FVal_div_fin_fin, if_neg hne',
    FVal.mul_fin_fin]
  congr 1
  rw [sdpaRefOut]
  rw [Finset.sum_congr rfl
    (fun c _ => by rw [Nat.zero_add] :
      ∀ c ∈ Finset.range I.kvLen.toNat,
        sdpaRefWeight P qQ ktQ mq I.kvLen.toNat I.headDim.toNat scaleQ i c
            * vQ ((0 + c) * I.headDim.toNat + p)
          = sdpaRefWeight P qQ ktQ mq I.kvLen.toNat I.headDim.toNat scaleQ i c
            * vQ (c * I.headDim.toNat + p))]
  field_simp

/-!
### Positivity of the polynomial exponential on the reachable range
-/

theorem bilin_bound {s r M R : ℚ} (hs1 : -M ≤ s) (hs2 : s ≤ M) (hr1 : -R ≤ r)
    (hr2 : r ≤ R) : -(M * R) ≤ s * r ∧ s * r ≤ M * R := by
  constructor <;> nlinarith

/-- On arguments `x ≤ 0` the range-reduced polynomial exponential is
positive, provided the Horner polynomial is positive on the reduced
range `[-R, R]` (`R` bounds `|reduced argument|`, via the clamp bound,
the accuracy `ε` of `invLn2 * (ln2hi + ln2lo) ≈ 1`, and half of
`ln2hi + ln2lo`). -/
theorem pexpQ_pos (P : SdpaParams) (R e : ℚ)
    (hcm : P.clampMin < 0) (hinv : 0 < P.invLn2) (hc : 0 < P.ln2hi + P.ln2lo)
    (he0 : 0 ≤ e)
    (helo : -e ≤ 1 - P.invLn2 * (P.ln2hi + P.ln2lo))
    (hehi : 1 - P.invLn2 * (P.ln2hi + P.ln2lo) ≤ e)
    (hRb : -P.clampMin * e + (P.ln2hi + P.ln2lo) / 2 ≤ R)
    (hhpos : ∀ r : ℚ, -R ≤ r → r ≤ R → 0 < hornerQ P.coeffs r)
    (x : ℚ) (hx : x ≤ 0) : 0 < pexpQ P x := by
  have hR0 : 0 < R := by nlinarith
  simp only [pexpQ]
  set y := if x < P.clampMin then P.clampMin else x with hy
  have hy1 : P.clampMin ≤ y := by
    rw [hy]
    split_ifs with h
    · exact le_refl _
    · linarith [not_lt.mp h]
  have hy2 : y ≤ 0 := by
    rw [hy]
    split_ifs with h
    · exact le_of_lt hcm
    · exact hx
  by_cases hg : 0 ≤ y * P.invLn2
  · have hy0 : y = 0 := by nlinarith
    rw [if_pos hg, hy0]
    have hk : truncQ (0 * P.invLn2 + 1 / 2) = 0 := by
      rw [truncQ, if_pos (by nlinarith), show (0 * P.invLn2 + 1 / 2 : ℚ) = 1 / 2 from by ring,
        Int.floor_eq_zero_iff]
      constructor <;> norm_num
    rw [hk]
    simp only [Int.cast_zero, zero_mul, sub_zero, zpow_zero, mul_one]
    exact hhpos 0 (by linarith) (by linarith)
  · rw [if_neg hg]
    have hg' : y * P.invLn2 < 0 := not_le.mp hg
    set k : ℤ := truncQ (y * P.invLn2 + -(1 / 2)) with hkdef
    have hkceil : k = ⌈y * P.invLn2 + -(1 / 2)⌉ := by
      rw [hkdef, truncQ, if_neg (by push_neg; linarith)]
    have hk1 : (y * P.invLn2 + -(1 / 2) : ℚ) ≤ (k : ℚ) := by
      rw [hkceil]
      exact Int.le_ceil _
    have hk2 : ((k : ℚ)) < y * P.invLn2 + -(1 / 2) + 1 := by
      rw [hkceil]
      exact Int.ceil_lt_add_one _
    set r : ℚ := y - (k : ℚ) * P.ln2hi - (k : ℚ) * P.ln2lo with hrdef
    have hreq : r = y * (1 - P.invLn2 * (P.ln2hi + P.ln2lo))
        + (y * P.invLn2 - (k : ℚ)) * (P.ln2hi + P.ln2lo) := by
      rw [hrdef]
      ring
    obtain ⟨hq1, hq2⟩ := bilin_bound (show -(-P.clampMin) ≤ y from by linarith)
      (show y ≤ -P.clampMin from by linarith) helo hehi
    have hdc1 : -(1 / 2) * (P.ln2hi + P.ln2lo)
        ≤ (y * P.invLn2 - (k : ℚ)) * (P.ln2hi + P.ln2lo) := by nlinarith
    have hdc2 : (y * P.invLn2 - (k : ℚ)) * (P.ln2hi + P.ln2lo)
        ≤ (1 / 2) * (P.ln2hi + P.ln2lo) := by nlinarith
    have hr1 : -R ≤ r := by
      rw [hreq]
      linarith
    have hr2 : r ≤ R := by
      rw [hreq]
      linarith
    exact mul_pos (hhpos r hr1 hr2) (by positivity)

set_option maxHeartbeats 1000000 in
/-- Positivity of the f32 Horner polynomial on `[-0.3466, 0.3466]`,
by a stage-by-stage interval bound. -/
theorem hornerQ_pos_f32 (r : ℚ) (h1 : -(3466/10000) ≤ r) (h2 : r ≤ 3466/10000) :
    0 < hornerQ sdpaParamsF32.coeffs r := by
  obtain ⟨g0l, g0u⟩ := bilin_bound
    (show -(14/10000 : ℚ) ≤ 0.001388888888888889 from by norm_num)
    (show (0.001388888888888889 : ℚ) ≤ 14/10000 from by norm_num) h1 h2
  have s1l : -(89/10000 : ℚ) ≤ 0.008333333333333333 + 0.001388888888888889 * r := by
    linarith only [g0l]
  have s1u : (0.008333333333333333 + 0.001388888888888889 * r : ℚ) ≤ 89/10000 := by
    linarith only [g0u]
  obtain ⟨g1l, g1u⟩ := bilin_bound s1l s1u h1 h2
  have s2l : -(448/10000 : ℚ) ≤ 0.041666666666666664
      + (0.008333333333333333 + 0.001388888888888889 * r) * r := by linarith only [g1l]
  have s2u : (0.041666666666666664
      + (0.008333333333333333 + 0.001388888888888889 * r) * r : ℚ) ≤ 448/10000 := by
    linarith only [g1u]
  obtain ⟨g2l, g2u⟩ := bilin_bound s2l s2u h1 h2
  have s3l : -(1822/10000 : ℚ) ≤ 0.16666666666666666 + (0.041666666666666664
      + (0.008333333333333333 + 0.001388888888888889 * r) * r) * r := by linarith only [g2l]
  have s3u : (0.16666666666666666 + (0.041666666666666664
      + (0.008333333333333333 + 0.001388888888888889 * r) * r) * r : ℚ) ≤ 1822/10000 := by
    linarith only [g2u]
  obtain ⟨g3l, g3u⟩ := bilin_bound s3l s3u h1 h2
  have s4l : -(5632/10000 : ℚ) ≤ 0.5 + (0.16666666666666666 + (0.041666666666666664
      + (0.008333333333333333 + 0.001388888888888889 * r) * r) * r) * r := by
    linarith only [g3l]
  have s4u : (0.5 + (0.16666666666666666 + (0.041666666666666664
      + (0.008333333333333333 + 0.001388888888888889 * r) * r) * r) * r : ℚ)
      ≤ 5632/10000 := by linarith only [g3u]
  obtain ⟨g4l, g4u⟩ := bilin_bound s4l s4u h1 h2
  have s5l : -(11953/10000 : ℚ) ≤ 1.0 + (0.5 + (0.16666666666666666
      + (0.041666666666666664
      + (0.008333333333333333 + 0.001388888888888889 * r) * r) * r) * r) * r := by
    linarith only [g4l]
  have s5u : (1.0 + (0.5 + (0.16666666666666666 + (0.041666666666666664
      + (0.008333333333333333 + 0.001388888888888889 * r) * r) * r) * r) * r : ℚ)
      ≤ 11953/10000 := by linarith only [g4u]
  obtain ⟨g5l, g5u⟩ := bilin_bound s5l s5u h1 h2
  show 0 < hornerQ sdpaParamsF32.coeffs r
  simp only [sdpaParamsF32, hornerQ, List.foldl_cons, List.foldl_nil]
  linarith only [g5l]

set_option maxHeartbeats 1600000 in
/-- Positivity of the f64 Horner polynomial on `[-0.3466, 0.3466]`,
by a stage-by-stage interval bound. -/
theorem hornerQ_pos_f64 (r : ℚ) (h1 : -(3466/10000) ≤ r) (h2 : r ≤ 3466/10000) :
    0 < hornerQ sdpaParamsF64.coeffs r := by
  obtain ⟨g0l, g0u⟩ := bilin_bound
    (show -(25/1000000 : ℚ) ≤ 2.48015873015873015873e-5 from by norm_num)
    (show (2.48015873015873015873e-5 : ℚ) ≤ 25/1000000 from by norm_num) h1 h2
  have s1l : -(21/100000 : ℚ) ≤ 1.98412698412698412698e-4
      + 2.48015873015873015873e-5 * r := by linarith only [g0l]
  have s1u : (1.98412698412698412698e-4 + 2.48015873015873015873e-5 * r : ℚ)
      ≤ 21/100000 := by linarith only [g0u]
  obtain ⟨g1l, g1u⟩ := bilin_bound s1l s1u h1 h2
  have s2l : -(147/100000 : ℚ) ≤ 1.38888888888888888889e-3
      + (1.98412698412698412698e-4 + 2.48015873015873015873e-5 * r) * r := by
    linarith only [g1l]
  have s2u : (1.38888888888888888889e-3
      + (1.98412698412698412698e-4 + 2.48015873015873015873e-5 * r) * r : ℚ)
      ≤ 147/100000 := by linarith only [g1u]
  obtain ⟨g2l, g2u⟩ := bilin_bound s2l s2u h1 h2
  have s3l : -(885/100000 : ℚ) ≤ 8.33333333333333333333e-3 + (1.38888888888888888889e-3
      + (1.98412698412698412698e-4 + 2.48015873015873015873e-5 * r) * r) * r := by
    linarith only [g2l]
  have s3u : (8.33333333333333333333e-3 + (1.38888888888888888889e-3
      + (1.98412698412698412698e-4 + 2.48015873015873015873e-5 * r) * r) * r : ℚ)
      ≤ 885/100000 := by linarith only [g2u]
  obtain ⟨g3l, g3u⟩ := bilin_bound s3l s3u h1 h2
  have s4l : -(448/10000 : ℚ) ≤ 4.16666666666666666667e-2 + (8.33333333333333333333e-3
      + (1.38888888888888888889e-3
      + (1.98412698412698412698e-4 + 2.48015873015873015873e-5 * r) * r) * r) * r := by
    linarith only [g3l]
  have s4u : (4.16666666666666666667e-2 + (8.33333333333333333333e-3
      + (1.38888888888888888889e-3
      + (1.98412698412698412698e-4 + 2.48015873015873015873e-5 * r) * r) * r) * r : ℚ)
      ≤ 448/10000 := by linarith only [g3u]
  obtain ⟨g4l, g4u⟩ := bilin_bound s4l s4u h1 h2
  have s5l : -(1822/10000 : ℚ) ≤ 1.66666666666666666667e-1 + (4.16666666666666666667e-2
      + (8.33333333333333333333e-3 + (1.38888888888888888889e-3
      + (1.98412698412698412698e-4 + 2.48015873015873015873e-5 * r) * r) * r) * r) * r := by
    linarith only [g4l]
  have s5u : (1.66666666666666666667e-1 + (4.16666666666666666667e-2
      + (8.33333333333333333333e-3 + (1.38888888888888888889e-3
      + (1.98412698412698412698e-4 + 2.48015873015873015873e-5 * r) * r) * r) * r) * r : ℚ)
      ≤ 1822/10000 := by linarith only [g4u]
  obtain ⟨g5l, g5u⟩ := bilin_bound s5l s5u h1 h2
  have s6l : -(5632/10000 : ℚ) ≤ 0.5 + (1.66666666666666666667e-1
      + (4.16666666666666666667e-2
      + (8.33333333333333333333e-3 + (1.38888888888888888889e-3
      + (1.98412698412698412698e-4 + 2.48015873015873015873e-5 * r) * r) * r) * r) * r) * r := by
    linarith only [g5l]
  have s6u : (0.5 + (1.66666666666666666667e-1 + (4.16666666666666666667e-2
      + (8.33333333333333333333e-3 + (1.38888888888888888889e-3
      + (1.98412698412698412698e-4 + 2.48015873015873015873e-5 * r) * r) * r) * r) * r) * r : ℚ)
      ≤ 5632/10000 := by linarith only [g5u]
  obtain ⟨g6l, g6u⟩ := bilin_bound s6l s6u h1 h2
  have s7l : -(11953/10000 : ℚ) ≤ 1.0 + (0.5 + (1.66666666666666666667e-1
      + (4.16666666666666666667e-2
      + (8.33333333333333333333e-3 + (1.38888888888888888889e-3
      + (1.98412698412698412698e-4 + 2.48015873015873015873e-5 * r) * r) * r) * r) * r) * r) * r := by
    linarith only [g6l]
  have s7u : (1.0 + (0.5 + (1.66666666666666666667e-1 + (4.16666666666666666667e-2
      + (8.33333333333333333333e-3 + (1.38888888888888888889e-3
      + (1.98412698412698412698e-4 + 2.48015873015873015873e-5 * r) * r) * r) * r) * r) * r) * r : ℚ)
      ≤ 11953/10000 := by linarith only [g6u]
  obtain ⟨g7l, g7u⟩ := bilin_bound s7l s7u h1 h2
  show 0 < hornerQ sdpaParamsF64.coeffs r
  simp only [sdpaParamsF64, hornerQ, List.foldl_cons, List.foldl_nil]
  linarith only [g7l]

/-- The f32 polynomial exponential is positive on nonpositive arguments. -/
theorem pexpQ_pos_f32 (x : ℚ) (hx : x ≤ 0) : 0 < pexpQ sdpaParamsF32 x :=
  pexpQ_pos sdpaParamsF32 (3466/10000) (1/1000000000)
    (by norm_num [sdpaParamsF32]) (by norm_num [sdpaParamsF32])
    (by norm_num [sdpaParamsF32]) (by norm_num)
    (by norm_num [sdpaParamsF32]) (by norm_num [sdpaParamsF32])
    (by norm_num [sdpaParamsF32]) hornerQ_pos_f32 x hx

/-- The f64 polynomial exponential is positive on nonpositive arguments. -/
theorem pexpQ_pos_f64 (x : ℚ) (hx : x ≤ 0) : 0 < pexpQ sdpaParamsF64 x :=
  pexpQ_pos sdpaParamsF64 (3466/10000) (1/1000000000)
    (by norm_num [sdpaParamsF64]) (by norm_num [sdpaParamsF64])
    (by norm_num [sdpaParamsF64]) (by norm_num)
    (by norm_num [sdpaParamsF64]) (by norm_num [sdpaParamsF64])
    (by norm_num [sdpaParamsF64]) hornerQ_pos_f64 x hx

/-- C2: for small sizes (`0 < seqLen ≤ tile width`, `0 < kvLen ≤ tile
width`, `0 < headDim`), with the mask either absent or present, every
output entry written by `sdpa_fmopa_f32` (resp. `sdpa_fmopa_f64`)
equals the direct reference computation
`softmax(scale·Q·Kᵗ + mask)·V` entrywise — exactly, in the
exact-arithmetic model, using the same polynomial exponential. -/
theorem claim_C2_small_size_matches_softmax_reference :
    (∀ (q kt v : ℕ → FVal) (mask : Option (ℕ → FVal)) (out0 : ℕ → FVal)
        (seqLen kvLen headDim : ℤ) (qQ ktQ vQ mq : ℕ → ℚ) (scaleQ : ℚ),
      0 < seqLen → seqLen ≤ 16 → 0 < kvLen → kvLen ≤ 16 → 0 < headDim →
      (∀ i, q i = FVal.fin (qQ i)) → (∀ i, kt i = FVal.fin (ktQ i)) →
      (∀ i, v i = FVal.fin (vQ i)) →
      ((mask = none ∧ ∀ i, mq i = 0)
        ∨ ∃ mk, mask = some mk ∧ ∀ i, mk i = FVal.fin (mq i)) →
      ∀ i p : ℕ, (i : ℤ) < seqLen → (p : ℤ) < headDim →
        sdpa_fmopa_f32 q kt v mask out0 seqLen kvLen headDim (FVal.fin scaleQ)
            (i * headDim.toNat + p)
          = FVal.fin (sdpaRefOut sdpaParamsF32 qQ ktQ vQ mq kvLen.toNat headDim.toNat
              scaleQ i p))
    ∧ (∀ (q kt v : ℕ → FVal) (mask : Option (ℕ → FVal)) (out0 : ℕ → FVal)
        (seqLen kvLen headDim : ℤ) (qQ ktQ vQ mq : ℕ → ℚ) (scaleQ : ℚ),
      0 < seqLen → seqLen ≤ 8 → 0 < kvLen → kvLen ≤ 8 → 0 < headDim →
      (∀ i, q i = FVal.fin (qQ i)) → (∀ i, kt i = FVal.fin (ktQ i)) →
      (∀ i, v i = FVal.fin (vQ i)) →
      ((mask = none ∧ ∀ i, mq i = 0)
        ∨ ∃ mk, mask = some mk ∧ ∀ i, mk i = FVal.fin (mq i)) →
      ∀ i p : ℕ, (i : ℤ) < seqLen → (p : ℤ) < headDim →
        sdpa_fmopa_f64 q kt v mask out0 seqLen kvLen headDim (FVal.fin scaleQ)
            (i * headDim.toNat + p)
          = FVal.fin (sdpaRefOut sdpaParamsF64 qQ ktQ vQ mq kvLen.toNat headDim.toNat
              scaleQ i p)) := by
  constructor
  · intro q kt v mask out0 seqLen kvLen headDim qQ ktQ vQ mq scaleQ
      hs0 hsw hk0 hkw hd0 hq hkt hv hmask i p hi hp
    refine sdpa_small_matches_reference sdpaParamsF32
      ⟨q, kt, v, mask, FVal.fin scaleQ, seqLen, kvLen, headDim⟩
      qQ ktQ vQ mq scaleQ out0 hs0 ?_ hk0 ?_ hd0 hq hkt hv rfl hmask pexpQ_pos_f32
      i p hi hp
    · show seqLen ≤ ((16 : ℕ) : ℤ)
      exact_mod_cast hsw
    · show kvLen ≤ ((16 : ℕ) : ℤ)
      exact_mod_cast hkw
  · intro q kt v mask out0 seqLen kvLen headDim qQ ktQ vQ mq scaleQ
      hs0 hsw hk0 hkw hd0 hq hkt hv hmask i p hi hp
    refine sdpa_small_matches_reference sdpaParamsF64
      ⟨q, kt, v, mask, FVal.fin scaleQ, seqLen, kvLen, headDim⟩
      qQ ktQ vQ mq scaleQ out0 hs0 ?_ hk0 ?_ hd0 hq hkt hv rfl hmask pexpQ_pos_f64
      i p hi hp
    · show seqLen ≤ ((8 : ℕ) : ℤ)
      exact_mod_cast hsw
    · show kvLen ≤ ((8 : ℕ) : ℤ)
      exact_mod_cast hkw

/-- Witness for C2: a concrete 1×1×1 call, mask absent for f32 and an
all-zero mask present for f64. -/
theorem claim_C2_witness :
    sdpa_fmopa_f32 (fun _ => FVal.fin 1) (fun _ => FVal.fin 1) (fun _ => FVal.fin 1)
        none (fun _ => FVal.fin 0) 1 1 1 (FVal.fin 1) (0 * (1 : ℤ).toNat + 0)
      = FVal.fin (sdpaRefOut sdpaParamsF32 (fun _ => 1) (fun _ => 1) (fun _ => 1)
          (fun _ => 0) (1 : ℤ).toNat (1 : ℤ).toNat 1 0 0)
    ∧ sdpa_fmopa_f64 (fun _ => FVal.fin 1) (fun _ => FVal.fin 1) (fun _ => FVal.fin 1)
        (some (fun _ => FVal.fin 0)) (fun _ => FVal.fin 0) 1 1 1 (FVal.fin 1)
        (0 * (1 : ℤ).toNat + 0)
      = FVal.fin (sdpaRefOut sdpaParamsF64 (fun _ => 1) (fun _ => 1) (fun _ => 1)
          (fun _ => 0) (1 : ℤ).toNat (1 : ℤ).toNat 1 0 0) :=
  ⟨claim_C2_small_size_matches_softmax_reference.1 (fun _ => FVal.fin 1) (fun _ => FVal.fin 1)
      (fun _ => FVal.fin 1) none (fun _ => FVal.fin 0) 1 1 1
      (fun _ => 1) (fun _ => 1) (fun _ => 1) (fun _ => 0) 1
      (by norm_num) (by norm_num) (by norm_num) (by norm_num) (by norm_num)
      (fun _ => rfl) (fun _ => rfl) (fun _ => rfl)
      (Or.inl ⟨rfl, fun _ => rfl⟩) 0 0 (by norm_num) (by norm_num),
   claim_C2_small_size_matches_softmax_reference.2 (fun _ => FVal.fin 1) (fun _ => FVal.fin 1)
      (fun _ => FVal.fin 1) (some (fun _ => FVal.fin 0)) (fun _ => FVal.fin 0) 1 1 1
      (fun _ => 1) (fun _ => 1) (fun _ => 1) (fun _ => 0) 1
      (by norm_num) (by norm_num) (by norm_num) (by norm_num) (by norm_num)
      (fun _ => rfl) (fun _ => rfl) (fun _ => rfl)
      (Or.inr ⟨fun _ => FVal.fin 0, rfl, fun _ => rfl⟩) 0 0 (by norm_num) (by norm_num)⟩

/-- The f32 polynomial exponential is exactly `1` at argument `0`:
no clamp, `k = (int)(0.5) = 0`, zero reduction, and the Horner chain
collapses to its last coefficient `1.0`. -/
theorem pexpQ_zero_f32 : pexpQ sdpaParamsF32 0 = 1 := by
  simp only [pexpQ]
  rw [if_neg (show ¬ ((0 : ℚ) < sdpaParamsF32.clampMin) from by norm_num [sdpaParamsF32])]
  rw [zero_mul, if_pos (le_refl (0 : ℚ)), zero_add]
  have ht : truncQ (1 / 2 : ℚ) = 0 := by
    rw [truncQ, if_pos (by norm_num), Int.floor_eq_zero_iff]
    norm_num [Set.mem_Ico]
  rw [ht]
  simp only [Int.cast_zero, zero_mul, sub_zero, zpow_zero, mul_one]
  norm_num [sdpaParamsF32, hornerQ]

/-- C9: with `seqLen = kvLen = 1`, `headDim = 4`, no mask and
`scale = 1`, the f32 driver returns `V`'s single row exactly: the
single-logit softmax weight is the polynomial exponential at `0`,
which is exactly `1`, so the running sum is `1` and the division
leaves the row unchanged. -/
theorem claim_C9_single_logit_identity (q kt v out0 : ℕ → FVal) (qQ ktQ vQ : ℕ → ℚ)
    (hq : ∀ i, q i = FVal.fin (qQ i)) (hkt : ∀ i, kt i = FVal.fin (ktQ i))
    (hv : ∀ i, v i = FVal.fin (vQ i)) (p : ℕ) (hp : p < 4) :
    sdpa_fmopa_f32 q kt v none out0 1 1 4 (FVal.fin 1) p = v p := by
  have h := sdpa_small_matches_reference sdpaParamsF32
    ⟨q, kt, v, none, FVal.fin 1, 1, 1, 4⟩ qQ ktQ vQ (fun _ => 0) 1 out0
    (by norm_num) (by norm_num [sdpaParamsF32]) (by norm_num)
    (by norm_num [sdpaParamsF32]) (by norm_num) hq hkt hv rfl
    (Or.inl ⟨rfl, fun _ => rfl⟩) pexpQ_pos_f32 0 p (by norm_num)
    (by show (p : ℤ) < 4; exact_mod_cast hp)
  norm_num at h
  have hmax : sdpaRefMax qQ ktQ (fun _ => 0) 1 4 1 0
      = sdpaRefScore qQ ktQ (fun _ => 0) 1 4 1 0 0 := by
    rw [sdpaRefMax]
    simp only [show List.range 1 = [0] from rfl, List.foldl_cons, List.foldl_nil]
    exact max_self _
  have hout : sdpaRefOut sdpaParamsF32 qQ ktQ vQ (fun _ => 0) 1 4 1 0 p = vQ p := by
    rw [sdpaRefOut]
    simp only [Finset.sum_range_one]
    rw [sdpaRefWeight, hmax, sub_self, pexpQ_zero_f32, one_mul, div_one]
    norm_num
  calc sdpa_fmopa_f32 q kt v none out0 1 1 4 (FVal.fin 1) p
      = FVal.fin (sdpaRefOut sdpaParamsF32 qQ ktQ vQ (fun _ => 0) 1 4 1 0 p) := h
    _ = FVal.fin (vQ p) := by rw [hout]
    _ = v p := (hv p).symm

/-- Witness for C9: all-ones `Q`, `Kᵗ` and a concrete `V`, read at
column `2`. -/
theorem claim_C9_witness :
    sdpa_fmopa_f32 (fun _ => FVal.fin 1) (fun _ => FVal.fin 1) (fun j => FVal.fin j)
        none (fun _ => FVal.fin 0) 1 1 4 (FVal.fin 1) 2 = FVal.fin 2 :=
  claim_C9_single_logit_identity (fun _ => FVal.fin 1) (fun _ => FVal.fin 1)
    (fun j => FVal.fin j) (fun _ => FVal.fin 0) (fun _ => 1) (fun _ => 1) (fun j => j)
    (fun _ => rfl) (fun _ => rfl) (fun _ => rfl) 2 (by norm_num)
